import Mathlib

/-
Verification of the merkle hash tree library (Certificate-Transparency style,
RFC 6962 scheme): a shallow embedding of the Go sources `merkle.go`-style
static functions (`MTH`, `Path`, `subProof`, `Proof`,
`largestPowerOf2SmallerThan`) and of the stateful incremental tree
(`tree.go`: `New`, `buildTree`, `rebuildTree`, `Append`, `MerkleRoot`,
`mthOfRange`, `AduitPath`, `InclusionProof`, `IndexOf`, `levels`).

Modelling conventions:
* A byte is a `Nat`, an entry (`[]byte`) is a `List Nat`.
* SHA-256 is treated as a collision-free black box (the spec treats the hash
  primitive as out of scope).  Since the code only ever hashes three shapes of
  input - the empty string, `0x00 || entry`, and `0x01 || left || right` with
  two fixed-width 32-byte digests - digests are modelled as the free algebra
  over exactly those three constructors.  Two digests are equal in the model
  iff the hash computations producing them have identical input bytes.
* Go slice lengths are below `2^63`; hypotheses `... ≤ 2^63` in theorems
  record this machine bound where the `uint64` loop in
  `largestPowerOf2SmallerThan` would otherwise overflow.
* A Go runtime panic (index out of range, makeslice with negative length) is
  modelled by `Option`/`none`; `Path`'s genuinely non-terminating recursion is
  modelled with explicit fuel.
-/

/-- Entries are opaque byte sequences. -/
abbrev Entry := List Nat

/-- Digests as the free algebra of the three hash-input shapes the code uses:
`SHA-256()`, `SHA-256(0x00 || d)` and `SHA-256(0x01 || l || r)`.  The
constructors are injective and pairwise distinct, which is exactly the
collision-freeness assumption together with the domain-separation prefixes and
the fixed 32-byte digest width. -/
inductive Digest where
  | empty : Digest
  | leaf : Entry → Digest
  | node : Digest → Digest → Digest
deriving DecidableEq, Repr

/-- Go `leafHash`: `sha256.Sum256(0x00 || input)`. -/
def leafHash (input : Entry) : Digest := Digest.leaf input

/-- Go `nodeHash`: `sha256.Sum256(0x01 || left || right)` (the two halves of
the input are whole 32-byte digests, so the pair form is faithful). -/
def nodeHash (left right : Digest) : Digest := Digest.node left right

/-- The loop body of Go `largestPowerOf2SmallerThan`: 64 iterations over
`uint64`s, `cur` doubling each round (with wrap-around at `2^64`), returning
`prev` as soon as `cur > n-1`, and `0` if the loop runs out. -/
def lp2Loop (n : Nat) : Nat → Nat → Nat → Nat
  | 0, _, _ => 0
  | fuel + 1, cur, prev =>
    let cur2 := cur * 2 % 2 ^ 64
    if n - 1 < cur2 then prev
    else lp2Loop n fuel cur2 cur2

/-- Go `largestPowerOf2SmallerThan(n uint64) uint64`. -/
def largestPowerOf2SmallerThan (n : Nat) : Nat :=
  if n < 2 then 0 else lp2Loop n 64 1 1

/-- Executable floor base-2 logarithm (structural recursion on a fuel bound so
that the kernel can evaluate it; `log2Aux_eq` identifies it with `Nat.log 2`). -/
def log2Aux : Nat → Nat → Nat
  | 0, _ => 0
  | fuel + 1, n => if n < 2 then 0 else log2Aux fuel (n / 2) + 1

/-- Go `levels(nodes int) int`.  The Go code computes `int(math.Log2(nodes))`
with `float64` arithmetic; for every feasible slice length the float
computation agrees with the exact integer base-2 logarithm modelled here.
(`levels(0)` is garbage in Go - `int(-Inf)` - and is never used on a
successfully constructed tree; see `New`.) -/
def levels (nodes : Nat) : Nat :=
  let l := log2Aux nodes nodes
  if 2 ^ l = nodes then l + 1 else l + 2

/-- Fuel-based body of Go `MTH`: the RFC 6962 Merkle tree hash recursion
(`k := largestPowerOf2SmallerThan n` is inlined).  One unit of fuel is spent
per recursion step; the wrapper `MTH` passes the list length, which is enough
fuel on every input on which the Go recursion terminates.  Running out of fuel
models divergence (only possible past the Go slice-length bound `2^63`). -/
def MTHf : Nat → List Entry → Digest
  | 0, _ => Digest.empty
  | fuel + 1, D =>
    if D.length = 0 then Digest.empty
    else if D.length = 1 then leafHash (D.getD 0 [])
    else
      nodeHash (MTHf fuel (D.take (largestPowerOf2SmallerThan D.length)))
        (MTHf fuel (D.drop (largestPowerOf2SmallerThan D.length)))

/-- Go `MTH(D [][]byte) [sha256.Size]byte`. -/
def MTH (D : List Entry) : Digest := MTHf D.length D

/-- The same recursion one level up, on lists of digests: this is the value
computed (and returned) by `buildTree`/`rebuildTree` on a list of leaf
digests.  `n = 1` returns `entries[0]` without re-hashing. -/
def MTHdf : Nat → List Digest → Digest
  | 0, _ => Digest.empty
  | fuel + 1, es =>
    if es.length = 0 then Digest.empty
    else if es.length = 1 then es.getD 0 Digest.empty
    else
      nodeHash (MTHdf fuel (es.take (largestPowerOf2SmallerThan es.length)))
        (MTHdf fuel (es.drop (largestPowerOf2SmallerThan es.length)))

/-- Merkle tree hash of a list of already-hashed leaves. -/
def MTHd (es : List Digest) : Digest := MTHdf es.length es

/-- Go `Path(m uint64, D [][]byte)`, fuel-based.  The Go guard is `m < 0 ||
m > n` (on `uint64`, only `m > n` can fire), so `m = n` slips through the
guard and the Go recursion diverges (see `PathF_diverges_m_eq_n`); `none`
models that divergence (fuel exhaustion). -/
def PathF : Nat → Nat → List Entry → Option (List Digest)
  | 0, _, _ => none
  | fuel + 1, m, D =>
    if m > D.length then some []
    else if m = 0 ∧ D.length = 1 then some []
    else
      if m < largestPowerOf2SmallerThan D.length then
        (PathF fuel m (D.take (largestPowerOf2SmallerThan D.length))).map
          (fun p => p ++ [MTH (D.drop (largestPowerOf2SmallerThan D.length))])
      else
        (PathF fuel (m - largestPowerOf2SmallerThan D.length)
            (D.drop (largestPowerOf2SmallerThan D.length))).map
          (fun p => p ++ [MTH (D.take (largestPowerOf2SmallerThan D.length))])

/-- Go `Path` with fuel `D.length + 1`, which is enough on every input where
the Go recursion terminates. -/
def MerklePath (m : Nat) (D : List Entry) : Option (List Digest) :=
  PathF (D.length + 1) m D

/-- `PathF m D` runs out of any amount of fuel: the Go recursion at this
input never terminates. -/
def PathDivergesAt (m : Nat) (D : List Entry) : Prop :=
  ∀ fuel, PathF fuel m D = none

/-- The verifier-side fold for audit paths, fuel-based.  It mirrors the
`Path` recursion: the left/right orientation at each step is recomputed from
`m` and `n` alone (as the spec demands): if `m` falls into the left half the
proof element is a right sibling, otherwise a left sibling.  The path is
consumed from its last element (root end) downwards. -/
def foldPathf : Nat → Nat → Nat → Digest → List Digest → Digest
  | 0, _, _, acc, _ => acc
  | fuel + 1, m, n, acc, p =>
    if 2 ≤ n then
      (p.getLast?).elim acc (fun s =>
        if m < largestPowerOf2SmallerThan n then
          nodeHash (foldPathf fuel m (largestPowerOf2SmallerThan n) acc p.dropLast) s
        else
          nodeHash s (foldPathf fuel (m - largestPowerOf2SmallerThan n)
            (n - largestPowerOf2SmallerThan n) acc p.dropLast))
    else acc

/-- The audit-path fold with enough fuel for size `n`. -/
def foldPath (m n : Nat) (acc : Digest) (p : List Digest) : Digest :=
  foldPathf n m n acc p

/-- Go `subProof(m uint64, D [][]byte, isKnown bool)`, fuel-based. -/
def subProoff : Nat → Nat → List Entry → Bool → List Digest
  | 0, _, _, _ => []
  | fuel + 1, m, D, isKnown =>
    if m = D.length ∧ isKnown = true then []
    else if m = D.length ∧ isKnown = false then [MTH D]
    else if m < D.length then
      if m ≤ largestPowerOf2SmallerThan D.length then
        subProoff fuel m (D.take (largestPowerOf2SmallerThan D.length)) isKnown
          ++ [MTH (D.drop (largestPowerOf2SmallerThan D.length))]
      else
        subProoff fuel (m - largestPowerOf2SmallerThan D.length)
          (D.drop (largestPowerOf2SmallerThan D.length)) false
          ++ [MTH (D.take (largestPowerOf2SmallerThan D.length))]
    else []

/-- Go `subProof` with enough fuel (`D.length + 1` covers the extra step
through the empty prefix when `m = 0`). -/
def subProof (m : Nat) (D : List Entry) (isKnown : Bool) : List Digest :=
  subProoff (D.length + 1) m D isKnown

/-- Go `Proof(m, D)`: `SUBPROOF(m, D, true)` behind the `m > n` guard (the
`m < 0` half of the Go guard cannot fire on `uint64`). -/
def Proof (m : Nat) (D : List Entry) : List Digest :=
  if m > D.length then [] else subProof m D true

/-- The verifier-side fold for consistency proofs, fuel-based, mirroring the
`subProof` recursion: the proof is consumed from its last element; when the
old boundary is in the left half the element is a right sibling, otherwise a
left sibling, and at the `m = n` boundary either the previously known root
(`isKnown`) or the proof's own commitment is used. -/
def foldProoff : Nat → Nat → Nat → Bool → Digest → List Digest → Option Digest
  | 0, _, _, _, _, _ => none
  | fuel + 1, m, n, known, old, p =>
    if m = n then
      if known then (if p = [] then some old else none)
      else (if p.length = 1 then some (p.getD 0 Digest.empty) else none)
    else if m < n then
      if m ≤ largestPowerOf2SmallerThan n then
        (p.getLast?).elim none (fun s =>
          (foldProoff fuel m (largestPowerOf2SmallerThan n) known old p.dropLast).map
            (fun l => nodeHash l s))
      else
        (p.getLast?).elim none (fun l =>
          (foldProoff fuel (m - largestPowerOf2SmallerThan n)
            (n - largestPowerOf2SmallerThan n) false old p.dropLast).map
            (fun r => nodeHash l r))
    else none

/-- The consistency-proof fold with enough fuel for size `n`. -/
def foldProof (m n : Nat) (known : Bool) (old : Digest) (p : List Digest) :
    Option Digest :=
  foldProoff (n + 1) m n known old p

/-- Go `MerkleHashTree`: per-level arrays of digests, level 0 = leaves. -/
structure MerkleHashTree where
  tree : List (List Digest)
deriving DecidableEq, Repr

/-- One append of Go `buildTree`: `m.tree[level] = append(m.tree[level],
hash)`.  `buildTree` only writes in range on reachable inputs; `List.set`
leaves the state unchanged out of range. -/
def appendAt (t : List (List Digest)) (j : Nat) (h : Digest) :
    List (List Digest) :=
  t.set j (t.getD j [] ++ [h])

/-- Go `buildTree(entries, level)`, state-passing and fuel-based: returns the
updated per-level arrays together with the digest of `entries`.  Every
internal node's digest is appended to the array of its level (children at
`level - 1`) in DFS post-order, left subtree first. -/
def buildTreef : Nat → List (List Digest) → List Digest → Nat →
    List (List Digest) × Digest
  | 0, t, _, _ => (t, Digest.empty)
  | fuel + 1, t, entries, level =>
    if entries.length = 0 then (t, Digest.empty)
    else if entries.length = 1 then (t, entries.getD 0 Digest.empty)
    else
      let k := largestPowerOf2SmallerThan entries.length
      let r1 := buildTreef fuel t (entries.take k) (level - 1)
      let r2 := buildTreef fuel r1.1 (entries.drop k) (level - 1)
      let hash := nodeHash r1.2 r2.2
      (appendAt r2.1 level hash, hash)

/-- Go `buildTree` with enough fuel. -/
def buildTree (t : List (List Digest)) (entries : List Digest) (level : Nat) :
    List (List Digest) × Digest :=
  buildTreef (entries.length + 1) t entries level

/-- Go `New(d [][]byte)`.  For an empty input Go computes `levels(0)` from
`int(math.Log2(0)) = int(-Inf)` (implementation-dependent, a huge negative
number on mainstream targets) and panics in `make([][][32]byte, l)`; the
failed construction is modelled as `none`. -/
def New (d : List Entry) : Option MerkleHashTree :=
  if d.length = 0 then none
  else
    some ⟨(buildTree ((d.map leafHash) :: List.replicate (levels d.length - 1) [])
      (d.map leafHash) (levels d.length - 1)).1⟩

/-- Go `MerkleRoot()`: `m.tree[len(m.tree)-1][0]`.  Go panics when the tree
has no levels (index `-1`) or an empty top level; both are `none`. -/
def MerkleRoot (t : MerkleHashTree) : Option Digest :=
  (t.tree.getLast?).bind (fun top => top[0]?)

/-- One write of Go `rebuildTree` into a single level array: overwrite
`xs[idx]` in place, or append when the cursor sits exactly at the end. -/
def writeList (xs : List Digest) (idx : Nat) (h : Digest) : List Digest :=
  if idx = xs.length then xs ++ [h] else xs.set idx h

/-- One write of Go `rebuildTree`: `writeList` applied at `tree[level]`. -/
def writeAt (t : List (List Digest)) (j idx : Nat) (h : Digest) :
    List (List Digest) :=
  t.set j (writeList (t.getD j []) idx h)

/-- Go `rebuildTree(entries, level, levelIndexMap)`: the same recursion as
`buildTree`, but writing through per-level cursors (`mp`, Go's
`levelIndexMap`, absent keys read as 0), overwriting stale digests in place
and appending once a cursor reaches the end of its level. -/
def rebuildTreef : Nat → List (List Digest) → (Nat → Nat) → List Digest →
    Nat → List (List Digest) × (Nat → Nat) × Digest
  | 0, t, mp, _, _ => (t, mp, Digest.empty)
  | fuel + 1, t, mp, entries, level =>
    if entries.length = 0 then (t, mp, Digest.empty)
    else if entries.length = 1 then (t, mp, entries.getD 0 Digest.empty)
    else
      let k := largestPowerOf2SmallerThan entries.length
      let r1 := rebuildTreef fuel t mp (entries.take k) (level - 1)
      let r2 := rebuildTreef fuel r1.1 r1.2.1 (entries.drop k) (level - 1)
      let hash := nodeHash r1.2.2 r2.2.2
      (writeAt r2.1 level (r2.2.1 level) hash,
        fun j => if j = level then r2.2.1 level + 1 else r2.2.1 j, hash)

/-- Go `rebuildTree` with enough fuel. -/
def rebuildTree (t : List (List Digest)) (mp : Nat → Nat)
    (entries : List Digest) (level : Nat) :
    List (List Digest) × (Nat → Nat) × Digest :=
  rebuildTreef (entries.length + 1) t mp entries level

/-- Go `Append(d ...[]byte)`: extend level 0 with the new leaf digests, grow
the level-array list to the new `levels` count, then recompute every level
above 0 with `rebuildTree` and a fresh cursor map, returning the new root.
(On a zero-value tree with no levels Go would panic at `m.tree[0]`;
reachable trees always have level 0.  Named `TreeAppend` because `Append` is
taken by a core type class.) -/
def TreeAppend (t : MerkleHashTree) (d : List Entry) : MerkleHashTree × Digest :=
  let leaves0 := t.tree.getD 0 [] ++ d.map leafHash
  let t1 := t.tree.set 0 leaves0 ++
    List.replicate (levels leaves0.length - (t.tree.set 0 leaves0).length) []
  let r := rebuildTree t1 (fun _ => 0) leaves0 (levels leaves0.length - 1)
  (⟨r.1⟩, r.2.2)

/-- Go `mthOfRange(start, end)`: reads the stored digest for the leaf range
`[start, end]` from the level determined by the range size, at index
`start / 2^(level)` (`int(math.Pow(2, float64(levels-1)))` is the exact
power for feasible sizes).  Out-of-range accesses (Go panics) are `none`. -/
def mthOfRange (t : MerkleHashTree) (s e : Nat) : Option Digest :=
  if s = e then (t.tree.getD 0 [])[s]?
  else
    (t.tree.getD (levels (e - s + 1) - 1) [])[s / 2 ^ (levels (e - s + 1) - 1)]?

/-- Go `AduitPath(m, start, end)` (sic), fuel-based.  `none` propagates an
out-of-range (panicking) `mthOfRange` lookup. -/
def AduitPathf : Nat → MerkleHashTree → Nat → Nat → Nat →
    Option (List Digest)
  | 0, _, _, s, e => if s > e then some [] else none
  | fuel + 1, t, m, s, e =>
    if s > e then some []
    else if m < s ∨ m > e then some []
    else if m = s ∧ e - s + 1 = 1 then some []
    else
      let k := s + largestPowerOf2SmallerThan (e - s + 1)
      if m < k then
        (AduitPathf fuel t m s (k - 1)).bind (fun p =>
          (mthOfRange t k e).map (fun d => p ++ [d]))
      else
        (AduitPathf fuel t m k e).bind (fun p =>
          (mthOfRange t s (k - 1)).map (fun d => p ++ [d]))

/-- Go `AduitPath` with enough fuel (the size of the range). -/
def AduitPath (t : MerkleHashTree) (m s e : Nat) : Option (List Digest) :=
  AduitPathf (e + 1 - s) t m s e

/-- Go `IndexOf(entries, e)`: index of the first digest equal to `e`, `-1`
when absent. -/
def IndexOf (entries : List Digest) (e : Digest) : Int :=
  match entries.findIdx? (fun b => b = e) with
  | some i => (i : Int)
  | none => -1

/-- Go `InclusionProof(e)` (panics on a zero-value tree at `mth.tree[0]`;
reachable trees always have level 0). -/
def InclusionProof (t : MerkleHashTree) (e : Entry) : Option (List Digest) :=
  let m := IndexOf (t.tree.getD 0 []) (leafHash e)
  if m < 0 then some []
  else AduitPath t m.toNat 0 ((t.tree.getD 0 []).length - 1)

/-- Level-placement soundness: `buildTree` stores each internal node at the
depth-determined level inherited from the root, while `mthOfRange` looks it
up at the size-determined level `levels(size) - 1`.  `nice n` states that
the two coincide throughout the decomposition of `n` leaves: the right
remainder of every split is a single leaf or sits exactly one level below
its parent.  (`nice 6 = false`: the two-leaf right subtree of a 6-leaf tree
is stored at level 2 but looked up at level 1.) -/
def nicef : Nat → Nat → Bool
  | 0, _ => false
  | fuel + 1, n =>
    if n ≤ 2 then true
    else
      (n - largestPowerOf2SmallerThan n == 1 ||
        levels (n - largestPowerOf2SmallerThan n) == levels n - 1) &&
      nicef fuel (n - largestPowerOf2SmallerThan n)

/-- `nicef` with enough fuel. -/
def nice (n : Nat) : Bool := nicef (n + 1) n

/-- Appending a list of entries one `Append` call per entry. -/
def appendEach (t : MerkleHashTree) (ds : List Entry) : MerkleHashTree :=
  ds.foldl (fun t e => (TreeAppend t [e]).1) t

/-- Performing a sequence of (batch) `Append` calls. -/
def afterAppends (t : MerkleHashTree) (bs : List (List Entry)) :
    MerkleHashTree :=
  bs.foldl (fun t b => (TreeAppend t b).1) t

/-- The reachable-tree invariant: level 0 holds the leaf digests `es`, there
are `levels es.length` level arrays, and the top level is exactly the
one-element array holding the root digest. -/
def WF (t : MerkleHashTree) (es : List Digest) : Prop :=
  1 ≤ es.length ∧ t.tree.length = levels es.length ∧
    t.tree.getD 0 [] = es ∧ t.tree.getLast? = some [MTHd es]

/-- The multiset of digests `buildTree` appends to level `j` when building
`es` with level parameter `lvl`, in append order (specification-side). -/
def nodesAtf : Nat → List Digest → Nat → Nat → List Digest
  | 0, _, _, _ => []
  | fuel + 1, es, lvl, j =>
    if es.length ≤ 1 then []
    else
      nodesAtf fuel (es.take (largestPowerOf2SmallerThan es.length)) (lvl - 1) j
        ++ nodesAtf fuel (es.drop (largestPowerOf2SmallerThan es.length)) (lvl - 1) j
        ++ (if j = lvl then [MTHd es] else [])

/-- `nodesAtf` with enough fuel. -/
def nodesAt (es : List Digest) (lvl j : Nat) : List Digest :=
  nodesAtf (es.length + 1) es lvl j

/-- The dyadic block decomposition of the leaves at level `j ≥ 1`
(specification-side): chunks of `2^j` leaves, with a final partial chunk
kept only when it covers more than half a block. -/
def blockListf (j : Nat) : Nat → List Digest → List Digest
  | 0, _ => []
  | fuel + 1, es =>
    if es.length = 0 then []
    else if es.length ≤ 2 ^ j then
      if 2 ^ (j - 1) < es.length then [MTHd es] else []
    else MTHd (es.take (2 ^ j)) :: blockListf j fuel (es.drop (2 ^ j))

/-- `blockListf` with enough fuel. -/
def blockList (j : Nat) (es : List Digest) : List Digest :=
  blockListf j es.length es

/-- Arithmetic characterisation of the leaf ranges whose digest is stored at
the size-determined level: `[s, e]` is an aligned block of `2^j` leaves
(`j = levels(size) - 1`), either full or running to the last leaf. -/
def GoodRange (n s e : Nat) : Prop :=
  s ≤ e ∧ e < n ∧ 2 ≤ e - s + 1 ∧
    2 ^ (levels (e - s + 1) - 1) ∣ s ∧
    (e - s + 1 = 2 ^ (levels (e - s + 1) - 1) ∨ e = n - 1)

/-- The leaf ranges `[s, e]` produced by the power-of-two decomposition of
`[0, n-1]`. -/
inductive Subtree : Nat → Nat → Nat → Prop where
  | root (n : Nat) (h : 1 ≤ n) : Subtree n 0 (n - 1)
  | left {n s e : Nat} (hsub : Subtree n s e) (h2 : 2 ≤ e - s + 1) :
      Subtree n s (s + largestPowerOf2SmallerThan (e - s + 1) - 1)
  | right {n s e : Nat} (hsub : Subtree n s e) (h2 : 2 ≤ e - s + 1) :
      Subtree n (s + largestPowerOf2SmallerThan (e - s + 1)) e

/-- Concrete example entries (the seven-leaf tree of the Go tests). -/
def entriesSeven : List Entry := [[0], [1], [2], [3], [4], [5], [6]]

/-- Concrete example entries: six pairwise-distinct leaves. -/
def entriesSix : List Entry := [[0], [1], [2], [3], [4], [5]]

theorem lp2Loop_le (fuel : Nat) : ∀ (n cur prev : Nat), prev ≤ n - 1 →
    lp2Loop n fuel cur prev ≤ n - 1 := by
  induction fuel with
  | zero => intro n cur prev _; simp [lp2Loop]
  | succ fuel ih =>
    intro n cur prev hprev
    simp only [lp2Loop]
    split
    · exact hprev
    · exact ih n _ _ (by omega)

/-- For `n ≥ 1` the loop result is `< n` (unconditionally, also in the
overflow regime where it returns 0). -/
theorem largestPowerOf2SmallerThan_lt {n : Nat} (h1 : 1 ≤ n) :
    largestPowerOf2SmallerThan n < n := by
  unfold largestPowerOf2SmallerThan
  split
  · omega
  · next h =>
    have := lp2Loop_le 64 n 1 1 (by omega)
    omega

theorem lp2Loop_pow {n : Nat} (h2 : 2 ≤ n) (h63 : n ≤ 2 ^ 63) :
    ∀ (fuel j : Nat), 2 ^ j ≤ n - 1 → n - 1 < 2 ^ (j + fuel) →
      lp2Loop n fuel (2 ^ j) (2 ^ j) = 2 ^ Nat.log 2 (n - 1) := by
  intro fuel
  induction fuel with
  | zero =>
    intro j hlo hhi
    rw [Nat.add_zero] at hhi
    omega
  | succ fuel ih =>
    intro j hlo hhi
    have hjlt : j < 63 := by
      by_contra hj
      have : (2 : Nat) ^ 63 ≤ 2 ^ j := Nat.pow_le_pow_right (by omega) (by omega)
      omega
    have hmod : 2 ^ j * 2 % 2 ^ 64 = 2 ^ (j + 1) := by
      rw [← pow_succ]
      exact Nat.mod_eq_of_lt (Nat.pow_lt_pow_right (by omega) (by omega))
    simp only [lp2Loop, hmod]
    split
    · next hlt =>
      have := Nat.log_eq_of_pow_le_of_lt_pow hlo (by omega)
      rw [this]
    · next hge =>
      have hle : 2 ^ (j + 1) ≤ n - 1 := by omega
      have := ih (j + 1) hle (by rw [show j + 1 + fuel = j + (fuel + 1) by omega]; exact hhi)
      exact this

/-- In the Go-representable range the loop computes the largest power of two
strictly below `n`, namely `2 ^ log2 (n-1)`. -/
theorem largestPowerOf2SmallerThan_eq {n : Nat} (h2 : 2 ≤ n) (h63 : n ≤ 2 ^ 63) :
    largestPowerOf2SmallerThan n = 2 ^ Nat.log 2 (n - 1) := by
  unfold largestPowerOf2SmallerThan
  rw [if_neg (by omega)]
  have h64 : n - 1 < 2 ^ (0 + 64) := by
    have : (2 : Nat) ^ 63 < 2 ^ 64 := by norm_num
    omega
  simpa using lp2Loop_pow h2 h63 64 0 (by omega) h64

theorem largestPowerOf2SmallerThan_pos {n : Nat} (h2 : 2 ≤ n) (h63 : n ≤ 2 ^ 63) :
    0 < largestPowerOf2SmallerThan n := by
  rw [largestPowerOf2SmallerThan_eq h2 h63]
  exact Nat.pos_pow_of_pos _ (by omega)

theorem le_two_mul_largestPowerOf2SmallerThan {n : Nat} (h2 : 2 ≤ n) (h63 : n ≤ 2 ^ 63) :
    n ≤ 2 * largestPowerOf2SmallerThan n := by
  rw [largestPowerOf2SmallerThan_eq h2 h63]
  have := Nat.lt_pow_succ_log_self (b := 2) (by omega) (n - 1)
  rw [pow_succ] at this
  omega

theorem log2Aux_eq : ∀ (fuel n : Nat), n ≤ fuel → log2Aux fuel n = Nat.log 2 n := by
  intro fuel
  induction fuel with
  | zero =>
    intro n hn
    have : n = 0 := by omega
    subst this
    simp [log2Aux, Nat.log_zero_right]
  | succ fuel ih =>
    intro n hn
    simp only [log2Aux]
    split
    · next h =>
      interval_cases n
      · simp [Nat.log_zero_right]
      · simp [Nat.log_one_right]
    · next h =>
      rw [ih (n / 2) (by omega)]
      exact (Nat.log_of_one_lt_of_le (by omega) (by omega)).symm

theorem levels_def (n : Nat) :
    levels n = if 2 ^ Nat.log 2 n = n then Nat.log 2 n + 1 else Nat.log 2 n + 2 := by
  unfold levels
  rw [log2Aux_eq n n le_rfl]

theorem levels_one : levels 1 = 1 := by decide

theorem levels_two : levels 2 = 2 := by decide

theorem levels_pos {n : Nat} : 1 ≤ levels n := by
  rw [levels_def]
  split <;> omega

theorem levels_eq_log {n : Nat} (h2 : 2 ≤ n) :
    levels n = Nat.log 2 (n - 1) + 2 := by
  rw [levels_def]
  split
  · next hpow =>
    set t := Nat.log 2 n with ht
    have htpos : 0 < t := Nat.log_pos (by omega) (by omega)
    have hlog : Nat.log 2 (n - 1) = t - 1 := by
      apply Nat.log_eq_of_pow_le_of_lt_pow
      · have : 2 ^ (t - 1) * 2 = 2 ^ t := by
          rw [← pow_succ]
          congr 1
          omega
        omega
      · have : 2 ^ (t - 1 + 1) = 2 ^ t := by congr 1; omega
        omega
    rw [hlog]
    omega
  · next hpow =>
    have hle : 2 ^ Nat.log 2 n ≤ n := Nat.pow_log_le_self 2 (by omega)
    have hlog : Nat.log 2 (n - 1) = Nat.log 2 n := by
      apply Nat.log_eq_of_pow_le_of_lt_pow
      · omega
      · have := Nat.lt_pow_succ_log_self (b := 2) (by omega) n
        have h1 : n < 2 ^ (Nat.log 2 n + 1) := this
        omega
    rw [hlog]

theorem levels_pow2 (t : Nat) : levels (2 ^ t) = t + 1 := by
  rw [levels_def, Nat.log_pow (by omega)]
  simp

theorem levels_mono {a b : Nat} (h1 : 1 ≤ a) (hab : a ≤ b) :
    levels a ≤ levels b := by
  rcases Nat.lt_or_ge a 2 with ha | ha
  · have : a = 1 := by omega
    subst this
    rw [levels_one]
    exact levels_pos
  · rw [levels_eq_log ha, levels_eq_log (by omega)]
    have := Nat.log_mono_right (b := 2) (show a - 1 ≤ b - 1 by omega)
    omega

/-- Each `n ≥ 1` fits in the top level block: `n ≤ 2 ^ (levels n - 1)`. -/
theorem le_pow_levels {n : Nat} (h1 : 1 ≤ n) : n ≤ 2 ^ (levels n - 1) := by
  rcases Nat.lt_or_ge n 2 with hn | hn
  · have : n = 1 := by omega
    subst this
    simp [levels_one]
  · rw [levels_eq_log hn]
    have := Nat.lt_pow_succ_log_self (b := 2) (by omega) (n - 1)
    have h : n - 1 < 2 ^ (Nat.log 2 (n - 1) + 1) := this
    have heq : Nat.log 2 (n - 1) + 2 - 1 = Nat.log 2 (n - 1) + 1 := by omega
    rw [heq]
    omega

/-- Each `n ≥ 2` strictly exceeds the half block: `2 ^ (levels n - 2) < n`. -/
theorem pow_levels_lt {n : Nat} (h2 : 2 ≤ n) : 2 ^ (levels n - 2) < n := by
  rw [levels_eq_log h2]
  have := Nat.pow_log_le_self 2 (show n - 1 ≠ 0 by omega)
  have heq : Nat.log 2 (n - 1) + 2 - 2 = Nat.log 2 (n - 1) := by omega
  rw [heq]
  omega

/-- Sizes in the half-open dyadic interval `(2^(j-1), 2^j]` sit at level `j`:
`levels s = j + 1`. -/
theorem levels_between {s j : Nat} (hj : 1 ≤ j) (hlo : 2 ^ (j - 1) < s)
    (hhi : s ≤ 2 ^ j) : levels s = j + 1 := by
  have hs2 : 2 ≤ s := by
    have : 1 ≤ 2 ^ (j - 1) := Nat.one_le_two_pow
    omega
  rw [levels_eq_log hs2]
  have hlog : Nat.log 2 (s - 1) = j - 1 := by
    apply Nat.log_eq_of_pow_le_of_lt_pow
    · omega
    · have : 2 ^ (j - 1 + 1) = 2 ^ j := by congr 1; omega
      omega
  rw [hlog]
  omega

/-- In range, the split point is determined by `levels`:
`largestPowerOf2SmallerThan n = 2 ^ (levels n - 2)`. -/
theorem largestPowerOf2SmallerThan_eq_levels {n : Nat} (h2 : 2 ≤ n)
    (h63 : n ≤ 2 ^ 63) :
    largestPowerOf2SmallerThan n = 2 ^ (levels n - 2) := by
  rw [largestPowerOf2SmallerThan_eq h2 h63, levels_eq_log h2, Nat.add_sub_cancel]

theorem MTHf_nil : ∀ fuel, MTHf fuel [] = Digest.empty := by
  intro fuel
  cases fuel <;> simp [MTHf]

theorem MTHdf_nil : ∀ fuel, MTHdf fuel [] = Digest.empty := by
  intro fuel
  cases fuel <;> simp [MTHdf]

/-- Fuel irrelevance for `MTHf` within the Go-representable range. -/
theorem MTHf_eq_MTH : ∀ (f : Nat) (D : List Entry), D.length ≤ f →
    D.length ≤ 2 ^ 63 → MTHf f D = MTH D := by
  intro f
  induction f using Nat.strong_induction_on with
  | _ f ih =>
    intro D hf h63
    rcases Nat.eq_zero_or_pos D.length with h0 | h0
    · obtain rfl := List.length_eq_zero.mp h0
      rw [MTHf_nil, MTH, MTHf_nil]
    · obtain ⟨g, rfl⟩ : ∃ g, f = g + 1 := ⟨f - 1, by omega⟩
      rw [MTH]
      obtain ⟨m, hm⟩ : ∃ m, D.length = m + 1 := ⟨D.length - 1, by omega⟩
      rw [hm]
      simp only [MTHf]
      rcases Nat.lt_or_ge D.length 2 with hlen | hlen
      · have h1 : D.length = 1 := by omega
        rw [if_neg (show ¬D.length = 0 by omega), if_neg (show ¬D.length = 0 by omega),
          if_pos h1, if_pos h1]
      · have hk1 : 0 < largestPowerOf2SmallerThan D.length :=
          largestPowerOf2SmallerThan_pos hlen h63
        have hk2 : largestPowerOf2SmallerThan D.length < D.length :=
          largestPowerOf2SmallerThan_lt (by omega)
        rw [if_neg (show ¬D.length = 0 by omega), if_neg (show ¬D.length = 0 by omega),
          if_neg (show ¬D.length = 1 by omega), if_neg (show ¬D.length = 1 by omega)]
        rw [ih g (by omega) _ (by simp [List.length_take]; omega) (by simp [List.length_take]; omega),
          ih g (by omega) _ (by simp [List.length_drop]; omega) (by simp [List.length_drop]; omega),
          ih m (by omega) _ (by simp [List.length_take]; omega) (by simp [List.length_take]; omega),
          ih m (by omega) _ (by simp [List.length_drop]; omega) (by simp [List.length_drop]; omega)]

/-- Fuel irrelevance for `MTHdf` within the Go-representable range. -/
theorem MTHdf_eq_MTHd : ∀ (f : Nat) (es : List Digest), es.length ≤ f →
    es.length ≤ 2 ^ 63 → MTHdf f es = MTHd es := by
  intro f
  induction f using Nat.strong_induction_on with
  | _ f ih =>
    intro es hf h63
    rcases Nat.eq_zero_or_pos es.length with h0 | h0
    · obtain rfl := List.length_eq_zero.mp h0
      rw [MTHdf_nil, MTHd, MTHdf_nil]
    · obtain ⟨g, rfl⟩ : ∃ g, f = g + 1 := ⟨f - 1, by omega⟩
      rw [MTHd]
      obtain ⟨m, hm⟩ : ∃ m, es.length = m + 1 := ⟨es.length - 1, by omega⟩
      rw [hm]
      simp only [MTHdf]
      rcases Nat.lt_or_ge es.length 2 with hlen | hlen
      · have h1 : es.length = 1 := by omega
        rw [if_neg (show ¬es.length = 0 by omega), if_neg (show ¬es.length = 0 by omega),
          if_pos h1, if_pos h1]
      · have hk1 : 0 < largestPowerOf2SmallerThan es.length :=
          largestPowerOf2SmallerThan_pos hlen h63
        have hk2 : largestPowerOf2SmallerThan es.length < es.length :=
          largestPowerOf2SmallerThan_lt (by omega)
        rw [if_neg (show ¬es.length = 0 by omega), if_neg (show ¬es.length = 0 by omega),
          if_neg (show ¬es.length = 1 by omega), if_neg (show ¬es.length = 1 by omega)]
        rw [ih g (by omega) _ (by simp [List.length_take]; omega) (by simp [List.length_take]; omega),
          ih g (by omega) _ (by simp [List.length_drop]; omega) (by simp [List.length_drop]; omega),
          ih m (by omega) _ (by simp [List.length_take]; omega) (by simp [List.length_take]; omega),
          ih m (by omega) _ (by simp [List.length_drop]; omega) (by simp [List.length_drop]; omega)]

theorem MTH_nil : MTH [] = Digest.empty := rfl

theorem MTH_length_one {D : List Entry} (h : D.length = 1) :
    MTH D = leafHash (D.getD 0 []) := by
  rw [MTH, h]
  simp only [MTHf, h]
  norm_num

theorem MTHd_length_one {es : List Digest} (h : es.length = 1) :
    MTHd es = es.getD 0 Digest.empty := by
  rw [MTHd, h]
  simp only [MTHdf, h]
  norm_num

/-- Unfolding of `MTH` at a splittable length. -/
theorem MTH_node {D : List Entry} (h2 : 2 ≤ D.length) (h63 : D.length ≤ 2 ^ 63) :
    MTH D = nodeHash (MTH (D.take (largestPowerOf2SmallerThan D.length)))
      (MTH (D.drop (largestPowerOf2SmallerThan D.length))) := by
  have hk1 : 0 < largestPowerOf2SmallerThan D.length :=
    largestPowerOf2SmallerThan_pos h2 h63
  have hk2 : largestPowerOf2SmallerThan D.length < D.length :=
    largestPowerOf2SmallerThan_lt (by omega)
  obtain ⟨m, hm⟩ : ∃ m, D.length = m + 1 := ⟨D.length - 1, by omega⟩
  rw [MTH, hm]
  simp only [MTHf]
  rw [if_neg (show ¬D.length = 0 by omega), if_neg (show ¬D.length = 1 by omega)]
  rw [show largestPowerOf2SmallerThan (m + 1) = largestPowerOf2SmallerThan D.length by rw [hm]]
  rw [MTHf_eq_MTH m _ (by simp [List.length_take]; omega) (by simp [List.length_take]; omega),
    MTHf_eq_MTH m _ (by simp [List.length_drop]; omega) (by simp [List.length_drop]; omega)]

/-- Unfolding of `MTHd` at a splittable length. -/
theorem MTHd_node {es : List Digest} (h2 : 2 ≤ es.length) (h63 : es.length ≤ 2 ^ 63) :
    MTHd es = nodeHash (MTHd (es.take (largestPowerOf2SmallerThan es.length)))
      (MTHd (es.drop (largestPowerOf2SmallerThan es.length))) := by
  have hk1 : 0 < largestPowerOf2SmallerThan es.length :=
    largestPowerOf2SmallerThan_pos h2 h63
  have hk2 : largestPowerOf2SmallerThan es.length < es.length :=
    largestPowerOf2SmallerThan_lt (by omega)
  obtain ⟨m, hm⟩ : ∃ m, es.length = m + 1 := ⟨es.length - 1, by omega⟩
  rw [MTHd, hm]
  simp only [MTHdf]
  rw [if_neg (show ¬es.length = 0 by omega), if_neg (show ¬es.length = 1 by omega)]
  rw [show largestPowerOf2SmallerThan (m + 1) = largestPowerOf2SmallerThan es.length by rw [hm]]
  rw [MTHdf_eq_MTHd m _ (by simp [List.length_take]; omega) (by simp [List.length_take]; omega),
    MTHdf_eq_MTHd m _ (by simp [List.length_drop]; omega) (by simp [List.length_drop]; omega)]

theorem MTHf_map : ∀ (f : Nat) (D : List Entry),
    MTHdf f (D.map leafHash) = MTHf f D := by
  intro f
  induction f with
  | zero => intro D; rfl
  | succ f ih =>
    intro D
    simp only [MTHf, MTHdf, List.length_map]
    by_cases h0 : D.length = 0
    · rw [if_pos h0, if_pos h0]
    · by_cases h1 : D.length = 1
      · rw [if_neg h0, if_neg h0, if_pos h1, if_pos h1]
        obtain ⟨d, rfl⟩ := List.length_eq_one.mp h1
        simp [leafHash]
      · rw [if_neg h0, if_neg h0, if_neg h1, if_neg h1,
          ← List.map_take, ← List.map_drop, ih, ih]

/-- The entry-level and digest-level tree hashes agree through `leafHash`. -/
theorem MTH_map (D : List Entry) : MTHd (D.map leafHash) = MTH D := by
  rw [MTH, MTHd, List.length_map]
  exact MTHf_map D.length D

/-- Fuel irrelevance for `PathF` on precondition-respecting inputs. -/
theorem PathF_eq_MerklePath : ∀ (f m : Nat) (D : List Entry), m < D.length →
    D.length + 1 ≤ f → D.length ≤ 2 ^ 63 → PathF f m D = MerklePath m D := by
  intro f
  induction f using Nat.strong_induction_on with
  | _ f ih =>
    intro m D hm hf h63
    obtain ⟨g, rfl⟩ : ∃ g, f = g + 1 := ⟨f - 1, by omega⟩
    rw [MerklePath]
    simp only [PathF]
    rw [if_neg (show ¬m > D.length by omega), if_neg (show ¬m > D.length by omega)]
    by_cases hbase : m = 0 ∧ D.length = 1
    · rw [if_pos hbase, if_pos hbase]
    · rw [if_neg hbase, if_neg hbase]
      have h2 : 2 ≤ D.length := by
        rcases Nat.lt_or_ge D.length 2 with h | h
        · exfalso; exact hbase ⟨by omega, by omega⟩
        · exact h
      have hk1 : 0 < largestPowerOf2SmallerThan D.length :=
        largestPowerOf2SmallerThan_pos h2 h63
      have hk2 : largestPowerOf2SmallerThan D.length < D.length :=
        largestPowerOf2SmallerThan_lt (by omega)
      by_cases hmk : m < largestPowerOf2SmallerThan D.length
      · rw [if_pos hmk, if_pos hmk]
        rw [ih g (by omega) m _ (by simp [List.length_take]; omega)
            (by simp [List.length_take]; omega) (by simp [List.length_take]; omega),
          ih D.length (by omega) m _ (by simp [List.length_take]; omega)
            (by simp [List.length_take]; omega) (by simp [List.length_take]; omega)]
      · rw [if_neg hmk, if_neg hmk]
        rw [ih g (by omega) _ _ (by simp [List.length_drop]; omega)
            (by simp [List.length_drop]; omega) (by simp [List.length_drop]; omega),
          ih D.length (by omega) _ _ (by simp [List.length_drop]; omega)
            (by simp [List.length_drop]; omega) (by simp [List.length_drop]; omega)]

/-- Go `Path` returns the empty path as soon as the `m > n` guard fires. -/
theorem MerklePath_gt {m : Nat} {D : List Entry} (h : m > D.length) :
    MerklePath m D = some [] := by
  rw [MerklePath]
  simp only [PathF]
  rw [if_pos h]

/-- Go `Path` base case: singleton list, index 0. -/
theorem MerklePath_base {D : List Entry} (h : D.length = 1) :
    MerklePath 0 D = some [] := by
  rw [MerklePath]
  simp only [PathF]
  rw [if_neg (by omega)]
  simp [h]

/-- Go `Path` unfolding, `m` in the left subtree. -/
theorem MerklePath_left {m : Nat} {D : List Entry} (h2 : 2 ≤ D.length)
    (h63 : D.length ≤ 2 ^ 63) (hmk : m < largestPowerOf2SmallerThan D.length) :
    MerklePath m D = (MerklePath m (D.take (largestPowerOf2SmallerThan D.length))).map
      (fun p => p ++ [MTH (D.drop (largestPowerOf2SmallerThan D.length))]) := by
  have hk2 : largestPowerOf2SmallerThan D.length < D.length :=
    largestPowerOf2SmallerThan_lt (by omega)
  rw [MerklePath]
  simp only [PathF]
  rw [if_neg (show ¬m > D.length by omega), if_neg (by omega), if_pos hmk]
  rw [PathF_eq_MerklePath D.length m _ (by simp [List.length_take]; omega)
    (by simp [List.length_take]; omega) (by simp [List.length_take]; omega)]

/-- Go `Path` unfolding, `m` in the right subtree (and within bounds). -/
theorem MerklePath_right {m : Nat} {D : List Entry} (h2 : 2 ≤ D.length)
    (h63 : D.length ≤ 2 ^ 63) (hm : m < D.length)
    (hmk : ¬m < largestPowerOf2SmallerThan D.length) :
    MerklePath m D = (MerklePath (m - largestPowerOf2SmallerThan D.length)
        (D.drop (largestPowerOf2SmallerThan D.length))).map
      (fun p => p ++ [MTH (D.take (largestPowerOf2SmallerThan D.length))]) := by
  have hk1 : 0 < largestPowerOf2SmallerThan D.length :=
    largestPowerOf2SmallerThan_pos h2 h63
  rw [MerklePath]
  simp only [PathF]
  rw [if_neg (show ¬m > D.length by omega), if_neg (by omega), if_neg hmk]
  rw [PathF_eq_MerklePath D.length _ _ (by simp [List.length_drop]; omega)
    (by simp [List.length_drop]; omega) (by simp [List.length_drop]; omega)]

/-- On precondition-respecting inputs the Go recursion terminates and
produces a value. -/
theorem MerklePath_isSome_aux : ∀ (n : Nat) (D : List Entry) (m : Nat),
    D.length = n → m < D.length → D.length ≤ 2 ^ 63 →
    ∃ p, MerklePath m D = some p := by
  intro n
  induction n using Nat.strong_induction_on with
  | _ n ih =>
    intro D m hn hm h63
    by_cases hbase : m = 0 ∧ D.length = 1
    · obtain ⟨rfl, h1⟩ := hbase
      exact ⟨[], MerklePath_base h1⟩
    · have h2 : 2 ≤ D.length := by
        rcases Nat.lt_or_ge D.length 2 with h | h
        · exfalso; exact hbase ⟨by omega, by omega⟩
        · exact h
      have hk1 : 0 < largestPowerOf2SmallerThan D.length :=
        largestPowerOf2SmallerThan_pos h2 h63
      have hk2 : largestPowerOf2SmallerThan D.length < D.length :=
        largestPowerOf2SmallerThan_lt (by omega)
      by_cases hmk : m < largestPowerOf2SmallerThan D.length
      · rw [MerklePath_left h2 h63 hmk]
        obtain ⟨p, hp⟩ := ih (D.take (largestPowerOf2SmallerThan D.length)).length
          (by simp [List.length_take]; omega) _ m rfl
          (by simp [List.length_take]; omega) (by simp [List.length_take]; omega)
        exact ⟨_, by rw [hp]; rfl⟩
      · rw [MerklePath_right h2 h63 hm hmk]
        obtain ⟨p, hp⟩ := ih (D.drop (largestPowerOf2SmallerThan D.length)).length
          (by simp [List.length_drop]; omega) _
          (m - largestPowerOf2SmallerThan D.length) rfl
          (by simp [List.length_drop]; omega) (by simp [List.length_drop]; omega)
        exact ⟨_, by rw [hp]; rfl⟩

theorem MerklePath_isSome {D : List Entry} {m : Nat} (hm : m < D.length)
    (h63 : D.length ≤ 2 ^ 63) : ∃ p, MerklePath m D = some p :=
  MerklePath_isSome_aux D.length D m rfl hm h63

/-- With a one-element list and `m = 1` (so `m = n`, which passes the
`m > n` guard), the Go `Path` recursion calls itself with unchanged
arguments: `k = largestPowerOf2SmallerThan 1 = 0`, `m ≥ k`, and
`Path(m - 0, D[0:1])` is the original call. -/
theorem pathF_one_singleton_none : ∀ (fuel : Nat) (e : Entry),
    PathF fuel 1 [e] = none := by
  intro fuel
  induction fuel with
  | zero => intro e; rfl
  | succ fuel ih =>
    intro e
    simp only [PathF]
    have hk : largestPowerOf2SmallerThan [e].length = 0 := by
      simp [List.length_singleton, largestPowerOf2SmallerThan]
    rw [if_neg (by simp), if_neg (by simp), hk, if_neg (by omega)]
    simp [ih e]

theorem foldPathf_small : ∀ (f m n : Nat) (acc : Digest) (p : List Digest),
    n < 2 → foldPathf f m n acc p = acc := by
  intro f m n acc p h
  cases f with
  | zero => rfl
  | succ f => simp only [foldPathf]; rw [if_neg (by omega)]

/-- Fuel irrelevance for the audit-path fold (within range). -/
theorem foldPathf_eq_foldPath : ∀ (f m n : Nat) (acc : Digest) (p : List Digest),
    n ≤ f → n ≤ 2 ^ 63 → foldPathf f m n acc p = foldPath m n acc p := by
  intro f
  induction f using Nat.strong_induction_on with
  | _ f ih =>
    intro m n acc p hf h63
    rcases Nat.lt_or_ge n 2 with h2 | h2
    · rw [foldPathf_small f m n acc p h2, foldPath, foldPathf_small n m n acc p h2]
    · obtain ⟨l, rfl⟩ : ∃ l, n = l + 1 := ⟨n - 1, by omega⟩
      obtain ⟨g, rfl⟩ : ∃ g, f = g + 1 := ⟨f - 1, by omega⟩
      have hk1 : 0 < largestPowerOf2SmallerThan (l + 1) :=
        largestPowerOf2SmallerThan_pos h2 h63
      have hk2 : largestPowerOf2SmallerThan (l + 1) < l + 1 :=
        largestPowerOf2SmallerThan_lt (by omega)
      rw [foldPath]
      simp only [foldPathf]
      rw [if_pos (show 2 ≤ l + 1 by omega), if_pos (show 2 ≤ l + 1 by omega)]
      cases hp : p.getLast? with
      | none => rfl
      | some s =>
        simp only [Option.elim_some]
        by_cases hmk : m < largestPowerOf2SmallerThan (l + 1)
        · rw [if_pos hmk, if_pos hmk,
            ih g (by omega) _ _ _ _ (by omega) (by omega),
            ih l (by omega) _ _ _ _ (by omega) (by omega)]
        · rw [if_neg hmk, if_neg hmk,
            ih g (by omega) _ _ _ _ (by omega) (by omega),
            ih l (by omega) _ _ _ _ (by omega) (by omega)]

/-- One step of the audit-path fold on a path ending with sibling `x`. -/
theorem foldPath_concat {m n : Nat} (h2 : 2 ≤ n) (h63 : n ≤ 2 ^ 63)
    (acc : Digest) (p : List Digest) (x : Digest) :
    foldPath m n acc (p ++ [x]) =
      if m < largestPowerOf2SmallerThan n then
        nodeHash (foldPath m (largestPowerOf2SmallerThan n) acc p) x
      else nodeHash x (foldPath (m - largestPowerOf2SmallerThan n)
        (n - largestPowerOf2SmallerThan n) acc p) := by
  have hk1 : 0 < largestPowerOf2SmallerThan n := largestPowerOf2SmallerThan_pos h2 h63
  have hk2 : largestPowerOf2SmallerThan n < n := largestPowerOf2SmallerThan_lt (by omega)
  obtain ⟨l, rfl⟩ : ∃ l, n = l + 1 := ⟨n - 1, by omega⟩
  rw [foldPath]
  simp only [foldPathf]
  rw [if_pos h2, List.getLast?_concat]
  simp only [Option.elim_some, List.dropLast_concat]
  by_cases hmk : m < largestPowerOf2SmallerThan (l + 1)
  · rw [if_pos hmk, if_pos hmk,
      foldPathf_eq_foldPath l _ _ _ _ (by omega) (by omega)]
  · rw [if_neg hmk, if_neg hmk,
      foldPathf_eq_foldPath l _ _ _ _ (by omega) (by omega)]

/-- Folding the digests of `Path(m, D)` from `leafHash(D[m])`, with the
left/right order recomputed from `m` and the sizes, reproduces `MTH(D)`. -/
theorem foldPath_reconstructs_aux : ∀ (n : Nat) (D : List Entry) (m : Nat)
    (p : List Digest), D.length = n → m < D.length → D.length ≤ 2 ^ 63 →
    MerklePath m D = some p →
    foldPath m D.length (leafHash (D.getD m [])) p = MTH D := by
  intro n
  induction n using Nat.strong_induction_on with
  | _ n ih =>
    intro D m p hn hm h63 hp
    by_cases hbase : m = 0 ∧ D.length = 1
    · obtain ⟨rfl, h1⟩ := hbase
      rw [MerklePath_base h1] at hp
      obtain rfl : ([] : List Digest) = p := by injection hp
      rw [h1, foldPath, foldPathf_small 1 _ _ _ _ (by omega)]
      exact (MTH_length_one h1).symm
    · have h2 : 2 ≤ D.length := by
        rcases Nat.lt_or_ge D.length 2 with h | h
        · exfalso; exact hbase ⟨by omega, by omega⟩
        · exact h
      have hk1 : 0 < largestPowerOf2SmallerThan D.length :=
        largestPowerOf2SmallerThan_pos h2 h63
      have hk2 : largestPowerOf2SmallerThan D.length < D.length :=
        largestPowerOf2SmallerThan_lt (by omega)
      by_cases hmk : m < largestPowerOf2SmallerThan D.length
      · rw [MerklePath_left h2 h63 hmk] at hp
        rw [Option.map_eq_some'] at hp
        obtain ⟨p', hp', rfl⟩ := hp
        have hlen : (D.take (largestPowerOf2SmallerThan D.length)).length =
            largestPowerOf2SmallerThan D.length := by
          simp [List.length_take]; omega
        have hacc : (D.take (largestPowerOf2SmallerThan D.length)).getD m [] =
            D.getD m [] := by
          simp [List.getD_eq_getElem?_getD, List.getElem?_take, hmk]
        have hsub := ih (D.take (largestPowerOf2SmallerThan D.length)).length
          (by omega) _ m p' rfl (by omega) (by omega) hp'
        rw [hlen, hacc] at hsub
        rw [foldPath_concat h2 h63, if_pos hmk, hsub, MTH_node h2 h63]
      · rw [MerklePath_right h2 h63 hm hmk] at hp
        rw [Option.map_eq_some'] at hp
        obtain ⟨p', hp', rfl⟩ := hp
        have hlen : (D.drop (largestPowerOf2SmallerThan D.length)).length =
            D.length - largestPowerOf2SmallerThan D.length := by
          simp [List.length_drop]
        have hacc : (D.drop (largestPowerOf2SmallerThan D.length)).getD
            (m - largestPowerOf2SmallerThan D.length) [] = D.getD m [] := by
          rw [show (D.drop (largestPowerOf2SmallerThan D.length)).getD
              (m - largestPowerOf2SmallerThan D.length) [] =
              D.getD (largestPowerOf2SmallerThan D.length +
                (m - largestPowerOf2SmallerThan D.length)) [] by
            simp [List.getD_eq_getElem?_getD, List.getElem?_drop]]
          congr 1
          omega
        have hsub := ih (D.drop (largestPowerOf2SmallerThan D.length)).length
          (by omega) _ (m - largestPowerOf2SmallerThan D.length) p' rfl
          (by omega) (by omega) hp'
        rw [hlen, hacc] at hsub
        rw [foldPath_concat h2 h63, if_neg hmk, hsub, MTH_node h2 h63]

/-- Fuel irrelevance for `subProoff` (within range). -/
theorem subProoff_eq_subProof : ∀ (f m : Nat) (D : List Entry) (b : Bool),
    D.length + 1 ≤ f → D.length ≤ 2 ^ 63 → subProoff f m D b = subProof m D b := by
  intro f
  induction f using Nat.strong_induction_on with
  | _ f ih =>
    intro m D b hf h63
    obtain ⟨g, rfl⟩ : ∃ g, f = g + 1 := ⟨f - 1, by omega⟩
    rw [subProof]
    simp only [subProoff]
    by_cases hc1 : m = D.length ∧ b = true
    · rw [if_pos hc1, if_pos hc1]
    rw [if_neg hc1, if_neg hc1]
    by_cases hc2 : m = D.length ∧ b = false
    · rw [if_pos hc2, if_pos hc2]
    rw [if_neg hc2, if_neg hc2]
    by_cases hm : m < D.length
    · rw [if_pos hm, if_pos hm]
      have hk2 : largestPowerOf2SmallerThan D.length < D.length :=
        largestPowerOf2SmallerThan_lt (by omega)
      by_cases hmk : m ≤ largestPowerOf2SmallerThan D.length
      · rw [if_pos hmk, if_pos hmk,
          ih g (by omega) _ _ _ (by simp [List.length_take]; omega)
            (by simp [List.length_take]; omega),
          ih D.length (by omega) _ _ _ (by simp [List.length_take]; omega)
            (by simp [List.length_take]; omega)]
      · have h2 : 2 ≤ D.length := by omega
        have hk1 : 0 < largestPowerOf2SmallerThan D.length :=
          largestPowerOf2SmallerThan_pos h2 h63
        rw [if_neg hmk, if_neg hmk,
          ih g (by omega) _ _ _ (by simp [List.length_drop]; omega)
            (by simp [List.length_drop]; omega),
          ih D.length (by omega) _ _ _ (by simp [List.length_drop]; omega)
            (by simp [List.length_drop]; omega)]
    · rw [if_neg hm, if_neg hm]

/-- `SUBPROOF(m, D[m], true) = {}`. -/
theorem subProof_known_base {m : Nat} {D : List Entry} (h : m = D.length) :
    subProof m D true = [] := by
  rw [subProof]
  simp only [subProoff]
  rw [if_pos ⟨h, trivial⟩]

/-- `SUBPROOF(m, D[m], false) = {MTH(D[m])}`. -/
theorem subProof_unknown_base {m : Nat} {D : List Entry} (h : m = D.length) :
    subProof m D false = [MTH D] := by
  rw [subProof]
  simp only [subProoff]
  rw [if_neg (by simp [h]), if_pos ⟨h, trivial⟩]

/-- `subProof` unfolding, prefix boundary in (or at the edge of) the left
subtree. -/
theorem subProof_left {m : Nat} {D : List Entry} (b : Bool)
    (h63 : D.length ≤ 2 ^ 63) (hm : m < D.length)
    (hmk : m ≤ largestPowerOf2SmallerThan D.length) :
    subProof m D b = subProof m (D.take (largestPowerOf2SmallerThan D.length)) b
      ++ [MTH (D.drop (largestPowerOf2SmallerThan D.length))] := by
  have hk2 : largestPowerOf2SmallerThan D.length < D.length :=
    largestPowerOf2SmallerThan_lt (by omega)
  rw [subProof]
  simp only [subProoff]
  rw [if_neg (by rintro ⟨h, -⟩; omega), if_neg (by rintro ⟨h, -⟩; omega),
    if_pos hm, if_pos hmk,
    subProoff_eq_subProof D.length _ _ _ (by simp [List.length_take]; omega)
      (by simp [List.length_take]; omega)]

/-- `subProof` unfolding, prefix boundary strictly inside the right
subtree. -/
theorem subProof_right {m : Nat} {D : List Entry} (b : Bool)
    (h63 : D.length ≤ 2 ^ 63) (hm : m < D.length)
    (hmk : ¬m ≤ largestPowerOf2SmallerThan D.length) :
    subProof m D b = subProof (m - largestPowerOf2SmallerThan D.length)
      (D.drop (largestPowerOf2SmallerThan D.length)) false
      ++ [MTH (D.take (largestPowerOf2SmallerThan D.length))] := by
  have h2 : 2 ≤ D.length := by omega
  have hk1 : 0 < largestPowerOf2SmallerThan D.length :=
    largestPowerOf2SmallerThan_pos h2 h63
  rw [subProof]
  simp only [subProoff]
  rw [if_neg (by rintro ⟨h, -⟩; omega), if_neg (by rintro ⟨h, -⟩; omega),
    if_pos hm, if_neg hmk,
    subProoff_eq_subProof D.length _ _ _ (by simp [List.length_drop]; omega)
      (by simp [List.length_drop]; omega)]

/-- Fuel irrelevance for the consistency-proof fold (within range). -/
theorem foldProoff_eq_foldProof : ∀ (f m n : Nat) (known : Bool) (old : Digest)
    (p : List Digest), n + 1 ≤ f → n ≤ 2 ^ 63 →
    foldProoff f m n known old p = foldProof m n known old p := by
  intro f
  induction f using Nat.strong_induction_on with
  | _ f ih =>
    intro m n known old p hf h63
    obtain ⟨g, rfl⟩ : ∃ g, f = g + 1 := ⟨f - 1, by omega⟩
    rw [foldProof]
    simp only [foldProoff]
    by_cases hc1 : m = n
    · rw [if_pos hc1, if_pos hc1]
    rw [if_neg hc1, if_neg hc1]
    by_cases hm : m < n
    · rw [if_pos hm, if_pos hm]
      have hk2 : largestPowerOf2SmallerThan n < n :=
        largestPowerOf2SmallerThan_lt (by omega)
      by_cases hmk : m ≤ largestPowerOf2SmallerThan n
      · rw [if_pos hmk, if_pos hmk,
          ih g (by omega) _ _ _ _ _ (by omega) (by omega),
          ih n (by omega) _ _ _ _ _ (by omega) (by omega)]
      · have h2 : 2 ≤ n := by omega
        have hk1 : 0 < largestPowerOf2SmallerThan n :=
          largestPowerOf2SmallerThan_pos h2 h63
        rw [if_neg hmk, if_neg hmk,
          ih g (by omega) _ _ _ _ _ (by omega) (by omega),
          ih n (by omega) _ _ _ _ _ (by omega) (by omega)]
    · rw [if_neg hm, if_neg hm]

/-- One step of the consistency fold, boundary in the left subtree. -/
theorem foldProof_left {m n : Nat} {known : Bool} {old : Digest}
    {p : List Digest} {x : Digest} (h63 : n ≤ 2 ^ 63) (hmn : m < n)
    (hmk : m ≤ largestPowerOf2SmallerThan n) :
    foldProof m n known old (p ++ [x]) =
      (foldProof m (largestPowerOf2SmallerThan n) known old p).map
        (fun l => nodeHash l x) := by
  have hk2 : largestPowerOf2SmallerThan n < n :=
    largestPowerOf2SmallerThan_lt (by omega)
  rw [foldProof]
  simp only [foldProoff]
  rw [if_neg (by omega), if_pos hmn, if_pos hmk, List.getLast?_concat]
  simp only [Option.elim_some, List.dropLast_concat]
  rw [foldProoff_eq_foldProof n _ _ _ _ _ (by omega) (by omega)]

/-- One step of the consistency fold, boundary strictly in the right
subtree. -/
theorem foldProof_right {m n : Nat} {known : Bool} {old : Digest}
    {p : List Digest} {x : Digest} (h63 : n ≤ 2 ^ 63) (hmn : m < n)
    (hmk : ¬m ≤ largestPowerOf2SmallerThan n) :
    foldProof m n known old (p ++ [x]) =
      (foldProof (m - largestPowerOf2SmallerThan n)
        (n - largestPowerOf2SmallerThan n) false old p).map
        (fun r => nodeHash x r) := by
  have h2 : 2 ≤ n := by omega
  have hk1 : 0 < largestPowerOf2SmallerThan n :=
    largestPowerOf2SmallerThan_pos h2 h63
  rw [foldProof]
  simp only [foldProoff]
  rw [if_neg (by omega), if_pos hmn, if_neg hmk, List.getLast?_concat]
  simp only [Option.elim_some, List.dropLast_concat]
  rw [foldProoff_eq_foldProof n _ _ _ _ _ (by omega) (by omega)]

/-- Folding `subProof(m, D, b)` together with the previously advertised root
(`old = MTH(D[0:m])` when `b` is set) reproduces `MTH(D)`, for `1 ≤ m ≤ n`. -/
theorem foldProof_subProof_aux : ∀ (n : Nat) (D : List Entry) (m : Nat)
    (b : Bool) (old : Digest), D.length = n → 1 ≤ m → m ≤ D.length →
    D.length ≤ 2 ^ 63 → (b = true → old = MTH (D.take m)) →
    foldProof m D.length b old (subProof m D b) = some (MTH D) := by
  intro n
  induction n using Nat.strong_induction_on with
  | _ n ih =>
    intro D m b old hn h1 hm h63 hold
    by_cases heq : m = D.length
    · cases b with
      | true =>
        have hov : old = MTH D := by rw [hold rfl, heq, List.take_length]
        subst hov
        rw [subProof_known_base heq, heq, foldProof]
        simp [foldProoff]
      | false =>
        rw [subProof_unknown_base heq, heq, foldProof]
        simp [foldProoff]
    · have hmlt : m < D.length := by omega
      have h2 : 2 ≤ D.length := by omega
      have hk1 : 0 < largestPowerOf2SmallerThan D.length :=
        largestPowerOf2SmallerThan_pos h2 h63
      have hk2 : largestPowerOf2SmallerThan D.length < D.length :=
        largestPowerOf2SmallerThan_lt (by omega)
      have hlent : (D.take (largestPowerOf2SmallerThan D.length)).length =
          largestPowerOf2SmallerThan D.length := by
        simp [List.length_take]; omega
      have hlend : (D.drop (largestPowerOf2SmallerThan D.length)).length =
          D.length - largestPowerOf2SmallerThan D.length := by
        simp [List.length_drop]
      by_cases hmk : m ≤ largestPowerOf2SmallerThan D.length
      · rw [subProof_left b h63 hmlt hmk, foldProof_left h63 hmlt hmk]
        have hsub := ih (D.take (largestPowerOf2SmallerThan D.length)).length
          (by omega) _ m b old rfl h1 (by omega) (by omega)
          (by
            intro hb
            rw [hold hb, List.take_take, min_eq_left hmk])
        rw [hlent] at hsub
        rw [hsub]
        simp only [Option.map_some']
        rw [MTH_node h2 h63]
      · rw [subProof_right b h63 hmlt hmk, foldProof_right h63 hmlt hmk]
        have hsub := ih (D.drop (largestPowerOf2SmallerThan D.length)).length
          (by omega) _ (m - largestPowerOf2SmallerThan D.length) false old rfl
          (by omega) (by omega) (by omega) (fun h => nomatch h)
        rw [hlend] at hsub
        rw [hsub]
        simp only [Option.map_some']
        rw [MTH_node h2 h63]

/-- `Proof(0, D)` emits one digest per decomposition level: its length is
exactly `levels n`. -/
theorem subProof_zero_length : ∀ (n : Nat) (D : List Entry), D.length = n →
    1 ≤ D.length → D.length ≤ 2 ^ 63 →
    (subProof 0 D true).length = levels D.length := by
  intro n
  induction n using Nat.strong_induction_on with
  | _ n ih =>
    intro D hn h1 h63
    have hk2 : largestPowerOf2SmallerThan D.length < D.length :=
      largestPowerOf2SmallerThan_lt (by omega)
    rcases Nat.lt_or_ge D.length 2 with h2 | h2
    · have hlen1 : D.length = 1 := by omega
      have hk0 : largestPowerOf2SmallerThan D.length = 0 := by omega
      rw [subProof_left true h63 (by omega) (by omega), hk0]
      have : subProof 0 (D.take 0) true = [] := subProof_known_base (by simp)
      rw [this]
      simp [hlen1, levels_one]
    · have hk1 : 0 < largestPowerOf2SmallerThan D.length :=
        largestPowerOf2SmallerThan_pos h2 h63
      rw [subProof_left true h63 (by omega) (by omega)]
      have hlent : (D.take (largestPowerOf2SmallerThan D.length)).length =
          largestPowerOf2SmallerThan D.length := by
        simp [List.length_take]; omega
      have hsub := ih (D.take (largestPowerOf2SmallerThan D.length)).length
        (by omega) _ rfl (by omega) (by omega)
      rw [hlent] at hsub
      rw [List.length_append, hsub]
      simp only [List.length_singleton]
      rw [largestPowerOf2SmallerThan_eq_levels h2 h63, levels_pow2]
      have hL : 2 ≤ levels D.length := by
        rw [levels_eq_log h2]
        omega
      omega

theorem getD_set_self {t : List (List Digest)} {j : Nat} {x : List Digest}
    (h : j < t.length) : (t.set j x).getD j [] = x := by
  simp [List.getD_eq_getElem?_getD, List.getElem?_set_self', h]

theorem getD_set_ne {t : List (List Digest)} {i j : Nat} {x : List Digest}
    (h : i ≠ j) : (t.set i x).getD j [] = t.getD j [] := by
  simp [List.getD_eq_getElem?_getD, List.getElem?_set_ne h]

theorem getD_append_left {t1 t2 : List (List Digest)} {j : Nat}
    (h : j < t1.length) : (t1 ++ t2).getD j [] = t1.getD j [] := by
  simp [List.getD_eq_getElem?_getD, List.getElem?_append, h]

theorem getD_append_right {t1 t2 : List (List Digest)} {j : Nat}
    (h : t1.length ≤ j) : (t1 ++ t2).getD j [] = t2.getD (j - t1.length) [] := by
  rw [List.getD_eq_getElem?_getD, List.getD_eq_getElem?_getD,
    List.getElem?_append_right h]

theorem getD_replicate {n j : Nat} (h : j < n) :
    (List.replicate n ([] : List Digest)).getD j [] = [] := by
  simp [List.getD_eq_getElem?_getD, List.getElem?_replicate, h]

theorem getD_of_le {xs : List (List Digest)} {j : Nat} (h : xs.length ≤ j) :
    xs.getD j [] = [] := by
  simp [List.getD_eq_getElem?_getD, List.getElem?_eq_none h]

theorem getLast?_eq_getD {t : List (List Digest)} (h : 1 ≤ t.length) :
    t.getLast? = some (t.getD (t.length - 1) []) := by
  rw [List.getLast?_eq_getElem?]
  have hlt : t.length - 1 < t.length := by omega
  simp [List.getD_eq_getElem?_getD, List.getElem?_eq_getElem hlt]

/-- `buildTree` returns the digest-level tree hash of its entries, whatever
the state. -/
theorem buildTreef_snd : ∀ (f : Nat) (t : List (List Digest))
    (es : List Digest) (lvl : Nat), (buildTreef f t es lvl).2 = MTHdf f es := by
  intro f
  induction f with
  | zero => intro t es lvl; rfl
  | succ f ih =>
    intro t es lvl
    simp only [buildTreef, MTHdf]
    by_cases h0 : es.length = 0
    · rw [if_pos h0, if_pos h0]
    rw [if_neg h0, if_neg h0]
    by_cases h1 : es.length = 1
    · rw [if_pos h1, if_pos h1]
    · rw [if_neg h1, if_neg h1]
      simp only [ih]

/-- `rebuildTree` returns the digest-level tree hash of its entries,
whatever the state and cursors. -/
theorem rebuildTreef_value : ∀ (f : Nat) (t : List (List Digest))
    (mp : Nat → Nat) (es : List Digest) (lvl : Nat),
    (rebuildTreef f t mp es lvl).2.2 = MTHdf f es := by
  intro f
  induction f with
  | zero => intro t mp es lvl; rfl
  | succ f ih =>
    intro t mp es lvl
    simp only [rebuildTreef, MTHdf]
    by_cases h0 : es.length = 0
    · rw [if_pos h0, if_pos h0]
    rw [if_neg h0, if_neg h0]
    by_cases h1 : es.length = 1
    · rw [if_pos h1, if_pos h1]
    · rw [if_neg h1, if_neg h1]
      simp only [ih]

theorem buildTreef_length : ∀ (f : Nat) (t : List (List Digest))
    (es : List Digest) (lvl : Nat),
    (buildTreef f t es lvl).1.length = t.length := by
  intro f
  induction f with
  | zero => intro t es lvl; rfl
  | succ f ih =>
    intro t es lvl
    simp only [buildTreef]
    by_cases h0 : es.length = 0
    · rw [if_pos h0]
    rw [if_neg h0]
    by_cases h1 : es.length = 1
    · rw [if_pos h1]
    · rw [if_neg h1]
      simp only [appendAt, List.length_set, ih]

theorem rebuildTreef_length : ∀ (f : Nat) (t : List (List Digest))
    (mp : Nat → Nat) (es : List Digest) (lvl : Nat),
    (rebuildTreef f t mp es lvl).1.length = t.length := by
  intro f
  induction f with
  | zero => intro t mp es lvl; rfl
  | succ f ih =>
    intro t mp es lvl
    simp only [rebuildTreef]
    by_cases h0 : es.length = 0
    · rw [if_pos h0]
    rw [if_neg h0]
    by_cases h1 : es.length = 1
    · rw [if_pos h1]
    · rw [if_neg h1]
      simp only [writeAt, List.length_set, ih]

theorem nodesAtf_small {f : Nat} {es : List Digest} {lvl j : Nat}
    (h : es.length ≤ 1) : nodesAtf f es lvl j = [] := by
  cases f with
  | zero => rfl
  | succ f => simp only [nodesAtf]; rw [if_pos h]

theorem nodesAt_small {es : List Digest} {lvl j : Nat} (h : es.length ≤ 1) :
    nodesAt es lvl j = [] := nodesAtf_small h

/-- Fuel irrelevance for `nodesAtf` (within range). -/
theorem nodesAtf_eq_nodesAt : ∀ (f : Nat) (es : List Digest) (lvl j : Nat),
    es.length + 1 ≤ f → es.length ≤ 2 ^ 63 →
    nodesAtf f es lvl j = nodesAt es lvl j := by
  intro f
  induction f using Nat.strong_induction_on with
  | _ f ih =>
    intro es lvl j hf h63
    by_cases hs : es.length ≤ 1
    · rw [nodesAtf_small hs, nodesAt_small hs]
    obtain ⟨g, rfl⟩ : ∃ g, f = g + 1 := ⟨f - 1, by omega⟩
    rw [nodesAt]
    simp only [nodesAtf]
    rw [if_neg hs, if_neg hs]
    have h2 : 2 ≤ es.length := by omega
    have hk1 : 0 < largestPowerOf2SmallerThan es.length :=
      largestPowerOf2SmallerThan_pos h2 h63
    have hk2 : largestPowerOf2SmallerThan es.length < es.length :=
      largestPowerOf2SmallerThan_lt (by omega)
    rw [ih g (by omega) _ _ _ (by simp [List.length_take]; omega)
        (by simp [List.length_take]; omega),
      ih g (by omega) _ _ _ (by simp [List.length_drop]; omega)
        (by simp [List.length_drop]; omega),
      ih es.length (by omega) _ _ _ (by simp [List.length_take]; omega)
        (by simp [List.length_take]; omega),
      ih es.length (by omega) _ _ _ (by simp [List.length_drop]; omega)
        (by simp [List.length_drop]; omega)]

/-- Unfolding of `nodesAt` at a splittable length. -/
theorem nodesAt_node {es : List Digest} {lvl j : Nat} (h2 : 2 ≤ es.length)
    (h63 : es.length ≤ 2 ^ 63) :
    nodesAt es lvl j =
      nodesAt (es.take (largestPowerOf2SmallerThan es.length)) (lvl - 1) j
        ++ nodesAt (es.drop (largestPowerOf2SmallerThan es.length)) (lvl - 1) j
        ++ (if j = lvl then [MTHd es] else []) := by
  have hk1 : 0 < largestPowerOf2SmallerThan es.length :=
    largestPowerOf2SmallerThan_pos h2 h63
  have hk2 : largestPowerOf2SmallerThan es.length < es.length :=
    largestPowerOf2SmallerThan_lt (by omega)
  rw [nodesAt]
  obtain ⟨m, hm⟩ : ∃ m, es.length + 1 = m + 1 := ⟨es.length, rfl⟩
  rw [hm]
  simp only [nodesAtf]
  rw [if_neg (by omega)]
  have hmes : m = es.length := by omega
  subst hmes
  rw [nodesAtf_eq_nodesAt es.length _ _ _ (by simp [List.length_take]; omega)
      (by simp [List.length_take]; omega),
    nodesAtf_eq_nodesAt es.length _ _ _ (by simp [List.length_drop]; omega)
      (by simp [List.length_drop]; omega)]

/-- No node is stored above the level parameter. -/
theorem nodesAt_high : ∀ (n : Nat) (es : List Digest) (lvl j : Nat),
    es.length = n → es.length ≤ 2 ^ 63 → lvl < j → nodesAt es lvl j = [] := by
  intro n
  induction n using Nat.strong_induction_on with
  | _ n ih =>
    intro es lvl j hn h63 hj
    by_cases hs : es.length ≤ 1
    · exact nodesAt_small hs
    have h2 : 2 ≤ es.length := by omega
    have hk1 : 0 < largestPowerOf2SmallerThan es.length :=
      largestPowerOf2SmallerThan_pos h2 h63
    have hk2 : largestPowerOf2SmallerThan es.length < es.length :=
      largestPowerOf2SmallerThan_lt (by omega)
    rw [nodesAt_node h2 h63,
      ih (es.take (largestPowerOf2SmallerThan es.length)).length
        (by simp [List.length_take]; omega) _ _ j rfl
        (by simp [List.length_take]; omega) (by omega),
      ih (es.drop (largestPowerOf2SmallerThan es.length)).length
        (by simp [List.length_drop]; omega) _ _ j rfl
        (by simp [List.length_drop]; omega) (by omega),
      if_neg (by omega)]
    rfl

/-- When the entries fit under the level parameter, nothing is ever stored
at level 0 (the leaves live there untouched). -/
theorem nodesAt_zero : ∀ (n : Nat) (es : List Digest) (lvl : Nat),
    es.length = n → es.length ≤ 2 ^ 63 → es.length ≤ 2 ^ lvl →
    nodesAt es lvl 0 = [] := by
  intro n
  induction n using Nat.strong_induction_on with
  | _ n ih =>
    intro es lvl hn h63 hfit
    by_cases hs : es.length ≤ 1
    · exact nodesAt_small hs
    have h2 : 2 ≤ es.length := by omega
    have hk1 : 0 < largestPowerOf2SmallerThan es.length :=
      largestPowerOf2SmallerThan_pos h2 h63
    have hk2 : largestPowerOf2SmallerThan es.length < es.length :=
      largestPowerOf2SmallerThan_lt (by omega)
    have hlvl : 1 ≤ lvl := by
      by_contra h
      have : lvl = 0 := by omega
      subst this
      simp at hfit
      omega
    have hkfit : largestPowerOf2SmallerThan es.length ≤ 2 ^ (lvl - 1) := by
      rw [largestPowerOf2SmallerThan_eq_levels h2 h63]
      have hlev : levels es.length ≤ lvl + 1 := by
        calc levels es.length ≤ levels (2 ^ lvl) := levels_mono (by omega) hfit
        _ = lvl + 1 := levels_pow2 lvl
      exact Nat.pow_le_pow_right (by omega) (by omega)
    have hdfit : es.length - largestPowerOf2SmallerThan es.length ≤ 2 ^ (lvl - 1) := by
      have := le_two_mul_largestPowerOf2SmallerThan h2 h63
      omega
    rw [nodesAt_node h2 h63,
      ih (es.take (largestPowerOf2SmallerThan es.length)).length
        (by simp [List.length_take]; omega) _ _ rfl
        (by simp [List.length_take]; omega)
        (by simp [List.length_take]; omega),
      ih (es.drop (largestPowerOf2SmallerThan es.length)).length
        (by simp [List.length_drop]; omega) _ _ rfl
        (by simp [List.length_drop]; omega)
        (by simp [List.length_drop]; omega),
      if_neg (by omega)]
    rfl

/-- State effect of `buildTree`: every level receives exactly the
`nodesAt` digests, appended at the end, in DFS post-order. -/
theorem buildTreef_effect : ∀ (f : Nat) (t : List (List Digest))
    (es : List Digest) (lvl j : Nat), es.length + 1 ≤ f →
    es.length ≤ 2 ^ 63 → lvl < t.length →
    (buildTreef f t es lvl).1.getD j [] = t.getD j [] ++ nodesAt es lvl j := by
  intro f
  induction f using Nat.strong_induction_on with
  | _ f ih =>
    intro t es lvl j hf h63 hlvl
    obtain ⟨g, rfl⟩ : ∃ g, f = g + 1 := ⟨f - 1, by omega⟩
    by_cases hs : es.length ≤ 1
    · rw [nodesAt_small hs]
      simp only [buildTreef]
      by_cases h0 : es.length = 0
      · rw [if_pos h0]; simp
      · rw [if_neg h0, if_pos (by omega)]; simp
    · have h2 : 2 ≤ es.length := by omega
      have hk1 : 0 < largestPowerOf2SmallerThan es.length :=
        largestPowerOf2SmallerThan_pos h2 h63
      have hk2 : largestPowerOf2SmallerThan es.length < es.length :=
        largestPowerOf2SmallerThan_lt (by omega)
      simp only [buildTreef]
      rw [if_neg (by omega), if_neg (by omega)]
      have hlen1 : (buildTreef g t (es.take (largestPowerOf2SmallerThan es.length))
          (lvl - 1)).1.length = t.length := buildTreef_length g t _ _
      have heff1 := ih g (by omega) t
        (es.take (largestPowerOf2SmallerThan es.length)) (lvl - 1) j
        (by simp [List.length_take]; omega) (by simp [List.length_take]; omega)
        (by omega)
      have heff2 := ih g (by omega)
        (buildTreef g t (es.take (largestPowerOf2SmallerThan es.length)) (lvl - 1)).1
        (es.drop (largestPowerOf2SmallerThan es.length)) (lvl - 1) j
        (by simp [List.length_drop]; omega) (by simp [List.length_drop]; omega)
        (by omega)
      have hlen2 : (buildTreef g
          (buildTreef g t (es.take (largestPowerOf2SmallerThan es.length)) (lvl - 1)).1
          (es.drop (largestPowerOf2SmallerThan es.length)) (lvl - 1)).1.length =
          t.length := by rw [buildTreef_length, hlen1]
      have hval1 : (buildTreef g t (es.take (largestPowerOf2SmallerThan es.length))
          (lvl - 1)).2 = MTHd (es.take (largestPowerOf2SmallerThan es.length)) := by
        rw [buildTreef_snd, MTHdf_eq_MTHd g _ (by simp [List.length_take]; omega)
          (by simp [List.length_take]; omega)]
      have hval2 : (buildTreef g
          (buildTreef g t (es.take (largestPowerOf2SmallerThan es.length)) (lvl - 1)).1
          (es.drop (largestPowerOf2SmallerThan es.length)) (lvl - 1)).2 =
          MTHd (es.drop (largestPowerOf2SmallerThan es.length)) := by
        rw [buildTreef_snd, MTHdf_eq_MTHd g _ (by simp [List.length_drop]; omega)
          (by simp [List.length_drop]; omega)]
      rw [nodesAt_node h2 h63]
      simp only [appendAt]
      by_cases hj : j = lvl
      · subst hj
        rw [getD_set_self (by rw [hlen2]; omega), heff2, heff1, hval1, hval2,
          if_pos rfl, ← MTHd_node h2 h63]
        simp [List.append_assoc]
      · rw [getD_set_ne (by omega), heff2, heff1, if_neg hj]
        simp [List.append_assoc]

/-- Construction layout: `New` yields `levels n` level arrays, level 0 the
leaf digests and level `j` exactly the `nodesAt` digests of the recursion
rooted at level `levels n - 1`. -/
theorem New_layout {D : List Entry} (h1 : 1 ≤ D.length)
    (h63 : D.length ≤ 2 ^ 63) :
    ∃ t, New D = some t ∧ t.tree.length = levels D.length ∧
      ∀ j, t.tree.getD j [] = (if j = 0 then D.map leafHash else []) ++
        nodesAt (D.map leafHash) (levels D.length - 1) j := by
  have hmaplen : (D.map leafHash).length = D.length := List.length_map D leafHash
  have hlpos : 1 ≤ levels D.length := levels_pos
  have ht0len : ((D.map leafHash) :: List.replicate (levels D.length - 1)
      ([] : List Digest)).length = levels D.length := by
    simp [List.length_replicate]
    omega
  refine ⟨_, by rw [New, if_neg (by omega)], ?_, ?_⟩
  · rw [buildTree, buildTreef_length, ht0len]
  · intro j
    rw [buildTree, buildTreef_effect _ _ _ _ _ (by omega) (by omega)
      (by rw [ht0len]; omega)]
    congr 1
    by_cases hj : j = 0
    · subst hj
      simp
    · rw [if_neg hj]
      obtain ⟨i, rfl⟩ : ∃ i, j = i + 1 := ⟨j - 1, by omega⟩
      rw [List.getD_cons_succ]
      by_cases hi : i < levels D.length - 1
      · exact getD_replicate hi
      · exact getD_of_le (by simp [List.length_replicate]; omega)

/-- `New` establishes the reachable-tree invariant. -/
theorem New_WF {D : List Entry} (h1 : 1 ≤ D.length)
    (h63 : D.length ≤ 2 ^ 63) :
    ∃ t, New D = some t ∧ WF t (D.map leafHash) := by
  obtain ⟨t, hnew, hlen, hlayout⟩ := New_layout h1 h63
  have hmaplen : (D.map leafHash).length = D.length := List.length_map D leafHash
  have hlpos : 1 ≤ levels D.length := levels_pos
  refine ⟨t, hnew, by omega, by rw [hlen, hmaplen], ?_, ?_⟩
  · rw [hlayout 0, if_pos rfl, nodesAt_zero D.length _ _ (by omega) (by omega)
      (by rw [hmaplen]; exact le_pow_levels h1)]
    simp
  · rw [getLast?_eq_getD (by omega), hlen]
    rcases Nat.lt_or_ge D.length 2 with h2 | h2
    · have hD1 : D.length = 1 := by omega
      rw [hlayout _, hD1, levels_one]
      simp only [Nat.sub_self, if_pos rfl]
      rw [nodesAt_small (by omega)]
      obtain ⟨d, rfl⟩ := List.length_eq_one.mp hD1
      simp [MTHd_length_one]
    · have hup : 2 ≤ levels D.length := by
        rw [levels_eq_log h2]
        omega
      rw [hlayout _, if_neg (by omega),
        nodesAt_node (by omega) (by omega)]
      have hk1 : 0 < largestPowerOf2SmallerThan (D.map leafHash).length := by
        rw [hmaplen]; exact largestPowerOf2SmallerThan_pos h2 h63
      have hk2 : largestPowerOf2SmallerThan (D.map leafHash).length <
          (D.map leafHash).length := largestPowerOf2SmallerThan_lt (by omega)
      rw [nodesAt_high _ _ _ _ rfl (by simp [List.length_take]; omega) (by omega),
        nodesAt_high _ _ _ _ rfl (by simp [List.length_drop]; omega) (by omega),
        if_pos rfl]
      simp

/-- Splitting preserves the dyadic fit: both halves of an `n ≤ 2^lvl`
split fit under `lvl - 1`. -/
theorem split_fits {n lvl : Nat} (h2 : 2 ≤ n) (h63 : n ≤ 2 ^ 63)
    (hfit : n ≤ 2 ^ lvl) :
    1 ≤ lvl ∧ largestPowerOf2SmallerThan n ≤ 2 ^ (lvl - 1) ∧
      n - largestPowerOf2SmallerThan n ≤ 2 ^ (lvl - 1) := by
  have hlvl : 1 ≤ lvl := by
    by_contra h
    have : lvl = 0 := by omega
    subst this
    simp at hfit
    omega
  have hkfit : largestPowerOf2SmallerThan n ≤ 2 ^ (lvl - 1) := by
    rw [largestPowerOf2SmallerThan_eq_levels h2 h63]
    have hlev : levels n ≤ lvl + 1 := by
      calc levels n ≤ levels (2 ^ lvl) := levels_mono (by omega) hfit
      _ = lvl + 1 := levels_pow2 lvl
    exact Nat.pow_le_pow_right (by omega) (by omega)
  have := le_two_mul_largestPowerOf2SmallerThan h2 h63
  exact ⟨hlvl, hkfit, by omega⟩

/-- State effect of `rebuildTree` on the levels the invariant cares about:
levels 0 and those above `lvl` (and their cursors) are untouched, and for
two or more entries the level `lvl` array receives exactly one `writeList`
of the root digest at the incoming cursor. -/
theorem rebuildTreef_effect : ∀ (f : Nat) (t : List (List Digest))
    (mp : Nat → Nat) (es : List Digest) (lvl : Nat), es.length + 1 ≤ f →
    es.length ≤ 2 ^ 63 → es.length ≤ 2 ^ lvl → lvl < t.length →
    (∀ j, j = 0 ∨ lvl < j →
      (rebuildTreef f t mp es lvl).1.getD j [] = t.getD j [] ∧
      (rebuildTreef f t mp es lvl).2.1 j = mp j) ∧
    (2 ≤ es.length →
      (rebuildTreef f t mp es lvl).1.getD lvl [] =
        writeList (t.getD lvl []) (mp lvl) (MTHd es)) := by
  intro f
  induction f using Nat.strong_induction_on with
  | _ f ih =>
    intro t mp es lvl hf h63 hfit hlvl
    obtain ⟨g, rfl⟩ : ∃ g, f = g + 1 := ⟨f - 1, by omega⟩
    by_cases hs : es.length ≤ 1
    · have hbase : rebuildTreef (g + 1) t mp es lvl = (t, mp, MTHdf (g + 1) es) := by
        simp only [rebuildTreef]
        by_cases h0 : es.length = 0
        · rw [if_pos h0]
          simp only [MTHdf]
          rw [if_pos h0]
        · rw [if_neg h0, if_pos (by omega)]
          simp only [MTHdf]
          rw [if_neg h0, if_pos (by omega)]
      rw [hbase]
      exact ⟨fun j _ => ⟨rfl, rfl⟩, by omega⟩
    · have h2 : 2 ≤ es.length := by omega
      have hk1 : 0 < largestPowerOf2SmallerThan es.length :=
        largestPowerOf2SmallerThan_pos h2 h63
      have hk2 : largestPowerOf2SmallerThan es.length < es.length :=
        largestPowerOf2SmallerThan_lt (by omega)
      obtain ⟨hlvl1, hkfit, hdfit⟩ := split_fits h2 h63 hfit
      have htlen : (rebuildTreef g t mp
          (es.take (largestPowerOf2SmallerThan es.length)) (lvl - 1)).1.length =
          t.length := rebuildTreef_length g t mp _ _
      have ih1 := ih g (by omega) t mp
        (es.take (largestPowerOf2SmallerThan es.length)) (lvl - 1)
        (by simp [List.length_take]; omega) (by simp [List.length_take]; omega)
        (by simp [List.length_take]; omega) (by omega)
      have ih2 := ih g (by omega)
        (rebuildTreef g t mp (es.take (largestPowerOf2SmallerThan es.length)) (lvl - 1)).1
        (rebuildTreef g t mp (es.take (largestPowerOf2SmallerThan es.length)) (lvl - 1)).2.1
        (es.drop (largestPowerOf2SmallerThan es.length)) (lvl - 1)
        (by simp [List.length_drop]; omega) (by simp [List.length_drop]; omega)
        (by simp [List.length_drop]; omega) (by omega)
      have hval : nodeHash
          (rebuildTreef g t mp (es.take (largestPowerOf2SmallerThan es.length)) (lvl - 1)).2.2
          (rebuildTreef g
            (rebuildTreef g t mp (es.take (largestPowerOf2SmallerThan es.length)) (lvl - 1)).1
            (rebuildTreef g t mp (es.take (largestPowerOf2SmallerThan es.length)) (lvl - 1)).2.1
            (es.drop (largestPowerOf2SmallerThan es.length)) (lvl - 1)).2.2 = MTHd es := by
        rw [rebuildTreef_value, rebuildTreef_value,
          MTHdf_eq_MTHd g _ (by simp [List.length_take]; omega)
            (by simp [List.length_take]; omega),
          MTHdf_eq_MTHd g _ (by simp [List.length_drop]; omega)
            (by simp [List.length_drop]; omega), ← MTHd_node h2 h63]
      have hstep : rebuildTreef (g + 1) t mp es lvl =
          (writeAt (rebuildTreef g
              (rebuildTreef g t mp (es.take (largestPowerOf2SmallerThan es.length)) (lvl - 1)).1
              (rebuildTreef g t mp (es.take (largestPowerOf2SmallerThan es.length)) (lvl - 1)).2.1
              (es.drop (largestPowerOf2SmallerThan es.length)) (lvl - 1)).1 lvl
            ((rebuildTreef g
              (rebuildTreef g t mp (es.take (largestPowerOf2SmallerThan es.length)) (lvl - 1)).1
              (rebuildTreef g t mp (es.take (largestPowerOf2SmallerThan es.length)) (lvl - 1)).2.1
              (es.drop (largestPowerOf2SmallerThan es.length)) (lvl - 1)).2.1 lvl)
            (MTHd es),
          fun j => if j = lvl then (rebuildTreef g
              (rebuildTreef g t mp (es.take (largestPowerOf2SmallerThan es.length)) (lvl - 1)).1
              (rebuildTreef g t mp (es.take (largestPowerOf2SmallerThan es.length)) (lvl - 1)).2.1
              (es.drop (largestPowerOf2SmallerThan es.length)) (lvl - 1)).2.1 lvl + 1
            else (rebuildTreef g
              (rebuildTreef g t mp (es.take (largestPowerOf2SmallerThan es.length)) (lvl - 1)).1
              (rebuildTreef g t mp (es.take (largestPowerOf2SmallerThan es.length)) (lvl - 1)).2.1
              (es.drop (largestPowerOf2SmallerThan es.length)) (lvl - 1)).2.1 j,
          MTHd es) := by
        conv =>
          lhs
          simp only [rebuildTreef]
        rw [if_neg (by omega), if_neg (by omega), hval]
      rw [hstep]
      constructor
      · intro j hj
        have hjne : j ≠ lvl := by omega
        constructor
        · simp only [writeAt]
          rw [getD_set_ne (by omega), (ih2.1 j (by omega)).1, (ih1.1 j (by omega)).1]
        · simp only []
          rw [if_neg hjne, (ih2.1 j (by omega)).2, (ih1.1 j (by omega)).2]
      · intro _
        simp only [writeAt]
        rw [getD_set_self (by rw [rebuildTreef_length, htlen]; omega),
          (ih2.1 lvl (by omega)).1, (ih1.1 lvl (by omega)).1,
          (ih2.1 lvl (by omega)).2, (ih1.1 lvl (by omega)).2]

theorem rebuildTreef_small {f : Nat} {t : List (List Digest)} {mp : Nat → Nat}
    {es : List Digest} {lvl : Nat} (h : es.length ≤ 1) :
    rebuildTreef f t mp es lvl = (t, mp, MTHdf f es) := by
  cases f with
  | zero => rfl
  | succ f =>
    simp only [rebuildTreef, MTHdf]
    by_cases h0 : es.length = 0
    · rw [if_pos h0, if_pos h0]
    · rw [if_neg h0, if_pos (by omega), if_neg h0, if_pos (by omega)]

/-- `Append` preserves the reachable-tree invariant and returns the new
root digest. -/
theorem TreeAppend_WF {t : MerkleHashTree} {es : List Digest} (hwf : WF t es)
    (ds : List Entry) (h63 : es.length + ds.length ≤ 2 ^ 63) :
    WF (TreeAppend t ds).1 (es ++ ds.map leafHash) ∧
      (TreeAppend t ds).2 = MTHd (es ++ ds.map leafHash) := by
  obtain ⟨hpos, hlen, hlvl0, htop⟩ := hwf
  have hmaplen : (ds.map leafHash).length = ds.length := List.length_map ds leafHash
  have hlen' : (es ++ ds.map leafHash).length = es.length + ds.length := by
    rw [List.length_append, hmaplen]
  have hpos' : 1 ≤ (es ++ ds.map leafHash).length := by omega
  have hmono : levels es.length ≤ levels (es ++ ds.map leafHash).length := by
    rw [hlen']
    exact levels_mono hpos (by omega)
  have hlpos : 1 ≤ levels es.length := levels_pos
  have htree1 : 1 ≤ t.tree.length := by omega
  have hleaves : t.tree.getD 0 [] ++ ds.map leafHash = es ++ ds.map leafHash := by
    rw [hlvl0]
  have hsetlen : (t.tree.set 0 (es ++ ds.map leafHash)).length = t.tree.length := by
    simp
  have ht1len : (t.tree.set 0 (es ++ ds.map leafHash) ++
      List.replicate (levels (es ++ ds.map leafHash).length -
        (t.tree.set 0 (es ++ ds.map leafHash)).length) []).length =
      levels (es ++ ds.map leafHash).length := by
    rw [List.length_append, hsetlen, List.length_replicate]
    omega
  have ht1zero : (t.tree.set 0 (es ++ ds.map leafHash) ++
      List.replicate (levels (es ++ ds.map leafHash).length -
        (t.tree.set 0 (es ++ ds.map leafHash)).length) []).getD 0 [] =
      es ++ ds.map leafHash := by
    rw [getD_append_left (by rw [hsetlen]; omega), getD_set_self (by omega)]
  have hgetold : t.tree.getD (t.tree.length - 1) [] = [MTHd es] := by
    have := getLast?_eq_getD htree1
    rw [this] at htop
    injection htop
  have ht1top : (t.tree.set 0 (es ++ ds.map leafHash) ++
      List.replicate (levels (es ++ ds.map leafHash).length -
        (t.tree.set 0 (es ++ ds.map leafHash)).length) []).getD
      (levels (es ++ ds.map leafHash).length - 1) [] =
      if levels (es ++ ds.map leafHash).length = t.tree.length ∧ 2 ≤ t.tree.length
      then [MTHd es]
      else if levels (es ++ ds.map leafHash).length = t.tree.length
      then es ++ ds.map leafHash else [] := by
    by_cases hsame : levels (es ++ ds.map leafHash).length = t.tree.length
    · rw [getD_append_left (by rw [hsetlen]; omega)]
      by_cases h2l : 2 ≤ t.tree.length
      · rw [if_pos ⟨hsame, h2l⟩, hsame, getD_set_ne (by omega), hgetold]
      · rw [if_neg (by tauto), if_pos hsame, hsame]
        have : t.tree.length - 1 = 0 := by omega
        rw [this, getD_set_self (by omega)]
    · rw [if_neg (by tauto), if_neg hsame,
        getD_append_right (by rw [hsetlen]; omega)]
      exact getD_replicate (by rw [hsetlen]; omega)
  rw [TreeAppend]
  simp only [hleaves]
  rcases Nat.lt_or_ge (es ++ ds.map leafHash).length 2 with hsmall | hbig
  · have h1 : (es ++ ds.map leafHash).length = 1 := by omega
    have hl1 : levels (es ++ ds.map leafHash).length = 1 := by
      rw [h1, levels_one]
    rw [rebuildTree, rebuildTreef_small (by omega)]
    have hfuel : (es ++ ds.map leafHash).length + 1 = 2 := by omega
    constructor
    · refine ⟨by omega, by simpa [hl1] using ht1len, by simpa using ht1zero, ?_⟩
      rw [getLast?_eq_getD (by rw [ht1len]; omega), ht1len,
        show levels (es ++ ds.map leafHash).length - 1 = 0 by omega, ht1zero]
      obtain ⟨d, hd⟩ := List.length_eq_one.mp h1
      rw [hd, MTHd_length_one (by rw [← hd]; omega)]
      simp
    · rw [hfuel, MTHdf_eq_MTHd 2 _ (by omega) (by omega)]
  · have heffect := rebuildTreef_effect ((es ++ ds.map leafHash).length + 1)
      (t.tree.set 0 (es ++ ds.map leafHash) ++
        List.replicate (levels (es ++ ds.map leafHash).length -
          (t.tree.set 0 (es ++ ds.map leafHash)).length) [])
      (fun _ => 0) (es ++ ds.map leafHash)
      (levels (es ++ ds.map leafHash).length - 1)
      (by omega) (by omega)
      (by
        have := le_pow_levels hpos'
        exact this)
      (by rw [ht1len]; omega)
    constructor
    · refine ⟨by omega, ?_, ?_, ?_⟩
      · rw [rebuildTree, rebuildTreef_length, ht1len]
      · rw [rebuildTree, (heffect.1 0 (by left; rfl)).1, ht1zero]
      · rw [getLast?_eq_getD
          (by rw [rebuildTree, rebuildTreef_length, ht1len]; omega),
          rebuildTree, rebuildTreef_length, ht1len, heffect.2 hbig, ht1top]
        have hup : 2 ≤ levels (es ++ ds.map leafHash).length := by
          rw [levels_eq_log hbig]
          omega
        by_cases hsame : levels (es ++ ds.map leafHash).length = t.tree.length
        · rw [if_pos ⟨hsame, by omega⟩]
          simp [writeList]
        · rw [if_neg (by tauto), if_neg hsame]
          simp [writeList]
    · rw [rebuildTree, rebuildTreef_value,
        MTHdf_eq_MTHd _ _ (by omega) (by omega)]

/-- `MerkleRoot` on a reachable tree returns the root digest. -/
theorem MerkleRoot_WF {t : MerkleHashTree} {es : List Digest} (hwf : WF t es) :
    MerkleRoot t = some (MTHd es) := by
  rw [MerkleRoot, hwf.2.2.2]
  rfl

/-- Entry-at-a-time appends preserve the invariant. -/
theorem appendEach_WF : ∀ (ds : List Entry) (t : MerkleHashTree)
    (es : List Digest), WF t es → es.length + ds.length ≤ 2 ^ 63 →
    WF (appendEach t ds) (es ++ ds.map leafHash) := by
  intro ds
  induction ds with
  | nil =>
    intro t es hwf _
    simpa [appendEach] using hwf
  | cons d ds ih =>
    intro t es hwf hbound
    have hstep := TreeAppend_WF hwf [d] (by simp at hbound ⊢; omega)
    have := ih (TreeAppend t [d]).1 (es ++ [leafHash d])
      (by simpa using hstep.1) (by simp at hbound ⊢; omega)
    have hassoc : es ++ [leafHash d] ++ ds.map leafHash =
        es ++ (d :: ds).map leafHash := by
      simp
    rw [hassoc] at this
    simpa [appendEach] using this

/-- Batch appends preserve the invariant. -/
theorem afterAppends_WF : ∀ (bs : List (List Entry)) (t : MerkleHashTree)
    (es : List Digest), WF t es →
    es.length + (bs.map List.length).sum ≤ 2 ^ 63 →
    WF (afterAppends t bs) (es ++ bs.flatten.map leafHash) := by
  intro bs
  induction bs with
  | nil =>
    intro t es hwf _
    simpa [afterAppends] using hwf
  | cons b bs ih =>
    intro t es hwf hbound
    simp only [List.map_cons, List.sum_cons] at hbound
    have hstep := TreeAppend_WF hwf b (by simp; omega)
    have := ih (TreeAppend t b).1 (es ++ b.map leafHash) hstep.1
      (by simp; omega)
    have hassoc : es ++ b.map leafHash ++ bs.flatten.map leafHash =
        es ++ ((b :: bs).flatten).map leafHash := by
      rw [List.flatten_cons, List.map_append, List.append_assoc]
    rw [hassoc] at this
    simpa [afterAppends] using this

/-- C1 (counterexample): at `n = 0` the static side is defined
(`MTH({}) = SHA-256()`) but `New` cannot build the incremental tree: Go
converts `math.Log2(0) = -Inf` to `int` and panics in `make` with a negative
length, so no `MerkleRoot()` can equal `MTH({})`.  The claim is false for
`n = 0`. -/
theorem new_empty_list_root_cex :
    Option.bind (New ([] : List Entry)) MerkleRoot ≠ some (MTH []) ∧
      New ([] : List Entry) = none := by
  exact ⟨by decide, rfl⟩

/-- C1 (amended): for every entry list of length `1 ≤ n ≤ 2^63`, the static
root hash `MTH(D)` equals the root returned by `MerkleRoot()` on the
incremental tree built by `New(D)`. -/
theorem static_root_eq_incremental_root (D : List Entry)
    (h1 : 1 ≤ D.length) (h63 : D.length ≤ 2 ^ 63) :
    Option.bind (New D) MerkleRoot = some (MTH D) := by
  obtain ⟨t, hnew, hwf⟩ := New_WF h1 h63
  rw [hnew, Option.some_bind, MerkleRoot_WF hwf, MTH_map]

/-- C1 (witness). -/
theorem static_root_eq_incremental_root_witness :
    1 ≤ (entriesSeven).length ∧
      Option.bind (New entriesSeven) MerkleRoot = some (MTH entriesSeven) :=
  ⟨by decide, static_root_eq_incremental_root entriesSeven (by decide) (by decide)⟩

/-- C2: for `0 ≤ m < n`, `Path(m, D)` terminates with a path whose fold from
`leafHash(D[m])` - combining with `nodeHash` in the left/right order
recomputed from `m` and the sizes alone - reproduces `MTH(D)`. -/
theorem audit_path_fold_reconstructs_root (D : List Entry) (m : Nat)
    (_h1 : 1 ≤ D.length) (h63 : D.length ≤ 2 ^ 63) (hm : m < D.length) :
    ∃ p, MerklePath m D = some p ∧
      foldPath m D.length (leafHash (D.getD m [])) p = MTH D := by
  obtain ⟨p, hp⟩ := MerklePath_isSome hm h63
  exact ⟨p, hp, foldPath_reconstructs_aux D.length D m p rfl hm h63 hp⟩

/-- C2 (witness). -/
theorem audit_path_fold_reconstructs_root_witness :
    1 ≤ (entriesSeven).length ∧
      ∃ p, MerklePath 3 entriesSeven = some p ∧
        foldPath 3 entriesSeven.length (leafHash (entriesSeven.getD 3 [])) p =
          MTH entriesSeven :=
  ⟨by decide, audit_path_fold_reconstructs_root entriesSeven 3 (by decide)
    (by decide) (by decide)⟩

/-- C5 (counterexample): at `m = 0` the fold implied by the `subProof`
recursion cannot reproduce the root from `MTH(D[0:0]) = SHA-256()`: for a
one-entry list the proof is `[leafHash d]` and any `nodeHash` combination
with the empty hash is a node digest, never the leaf digest `MTH(D)`.  The
claim's `0 ≤ m` range is too wide (RFC 6962 consistency proofs assume
`0 < m`). -/
theorem consistency_fold_zero_cex :
    foldProof 0 1 true (MTH []) (Proof 0 [[100]]) ≠ some (MTH [[100]]) := by
  decide

/-- C5 (amended): for `1 ≤ m ≤ n`, folding `Proof(m, D)` together with the
previously advertised `MTH(D[0:m])` reproduces `MTH(D)`; and at `m = n` the
proof is the empty sequence. -/
theorem consistency_proof_fold_reconstructs_root (D : List Entry) (m : Nat)
    (h1 : 1 ≤ m) (hm : m ≤ D.length) (h63 : D.length ≤ 2 ^ 63) :
    foldProof m D.length true (MTH (D.take m)) (Proof m D) = some (MTH D) ∧
      Proof D.length D = [] := by
  constructor
  · rw [Proof, if_neg (by omega)]
    exact foldProof_subProof_aux D.length D m true _ rfl h1 hm h63 (fun _ => rfl)
  · rw [Proof, if_neg (by omega), subProof_known_base rfl]

/-- C5 (witness). -/
theorem consistency_proof_fold_reconstructs_root_witness :
    1 ≤ 3 ∧
      (foldProof 3 entriesSeven.length true (MTH (entriesSeven.take 3))
          (Proof 3 entriesSeven) = some (MTH entriesSeven) ∧
        Proof entriesSeven.length entriesSeven = []) :=
  ⟨by decide, consistency_proof_fold_reconstructs_root entriesSeven 3
    (by decide) (by decide) (by decide)⟩

/-- C6: appending entries one `Append` call at a time and appending them all
in a single `Append` call yield the same final root digest (both equal the
tree hash of all leaves; `Append` recomputes the root from level 0 on every
call). -/
theorem append_one_at_a_time_eq_batch (D0 rest : List Entry)
    (h63 : D0.length + rest.length ≤ 2 ^ 63) :
    (New D0).bind (fun t => MerkleRoot (appendEach t rest)) =
      (New D0).bind (fun t => MerkleRoot ((TreeAppend t rest).1)) := by
  rcases Nat.eq_zero_or_pos D0.length with h0 | h0
  · rw [New, if_pos h0]
    rfl
  · obtain ⟨t, hnew, hwf⟩ := New_WF h0 (by omega)
    rw [hnew, Option.some_bind, Option.some_bind]
    have hmaplen : (D0.map leafHash).length = D0.length := List.length_map D0 leafHash
    rw [MerkleRoot_WF (appendEach_WF rest t (D0.map leafHash) hwf (by omega)),
      MerkleRoot_WF (TreeAppend_WF hwf rest (by omega)).1]

/-- C6 (witness). -/
theorem append_one_at_a_time_eq_batch_witness :
    (([[0]] : List Entry).length + ([[1], [2]] : List Entry).length ≤ 2 ^ 63) ∧
      (New [[0]]).bind (fun t => MerkleRoot (appendEach t [[1], [2]])) =
        (New [[0]]).bind (fun t => MerkleRoot ((TreeAppend t [[1], [2]]).1)) :=
  ⟨by decide, append_one_at_a_time_eq_batch [[0]] [[1], [2]] (by decide)⟩

/-- C7 (counterexample): the Go guard is `m > n`, so `m = n` passes it, and
the recursion then diverges (stack overflow) instead of returning an empty
path: with one entry and `m = 1`, `PathF` returns `none` for every amount of
fuel.  The claim is false for the `m = n` part of its `m ≥ n` range. -/
theorem path_at_m_eq_n_diverges_cex :
    ([[100]] : List Entry).length ≤ 1 ∧ PathDivergesAt 1 [[100]] :=
  ⟨by decide, fun fuel => pathF_one_singleton_none fuel [100]⟩

/-- C7 (amended): for `m > n` (strictly out of range) `Path(m, D)`
terminates immediately with the empty path. -/
theorem path_out_of_range_returns_empty (D : List Entry) (m fuel : Nat)
    (hm : D.length < m) (hf : 1 ≤ fuel) :
    PathF fuel m D = some [] ∧ MerklePath m D = some [] := by
  refine ⟨?_, MerklePath_gt hm⟩
  obtain ⟨g, rfl⟩ : ∃ g, fuel = g + 1 := ⟨fuel - 1, by omega⟩
  simp only [PathF]
  rw [if_pos (by omega)]

/-- C7 (witness). -/
theorem path_out_of_range_returns_empty_witness :
    (([[1], [2]] : List Entry).length < 5 ∧ 1 ≤ 1) ∧
      (PathF 1 5 [[1], [2]] = some [] ∧ MerklePath 5 [[1], [2]] = some []) :=
  ⟨⟨by decide, by decide⟩,
    path_out_of_range_returns_empty [[1], [2]] 5 1 (by decide) (by decide)⟩

/-- C8 (counterexample): `MerkleRoot()` on an incremental tree to which no
leaves were ever appended does not fail with a recoverable `EmptyTree`
error - the Go method has no error return at all and panics with an
index-out-of-range runtime error (`m.tree[len(m.tree)-1]` with
`len(m.tree) = 0`), modelled by `none`. -/
theorem merkleRoot_empty_tree_cex :
    MerkleRoot ⟨([] : List (List Digest))⟩ = none := rfl

/-- C8 (amended): on a never-appended tree `MerkleRoot` panics (no
recoverable error value exists in the code), and on a tree with at least one
leaf it returns the single digest sitting at the top level. -/
theorem merkleRoot_top_level_digest :
    MerkleRoot ⟨([] : List (List Digest))⟩ = none ∧
      ∀ D : List Entry, 1 ≤ D.length → D.length ≤ 2 ^ 63 →
        ∃ t, New D = some t ∧ ∃ d, MerkleRoot t = some d ∧
          t.tree.getLast? = some [d] := by
  refine ⟨rfl, fun D h1 h63 => ?_⟩
  obtain ⟨t, hnew, hwf⟩ := New_WF h1 h63
  exact ⟨t, hnew, MTHd (D.map leafHash), MerkleRoot_WF hwf, hwf.2.2.2⟩

/-- C8 (witness). -/
theorem merkleRoot_top_level_digest_witness :
    1 ≤ ([[0], [1]] : List Entry).length ∧
      ∃ t, New [[0], [1]] = some t ∧ ∃ d, MerkleRoot t = some d ∧
        t.tree.getLast? = some [d] :=
  ⟨by decide, merkleRoot_top_level_digest.2 [[0], [1]] (by decide) (by decide)⟩

/-- C10: `Proof(0, D)` is not empty: the recursion bottoms out at the empty
prefix with `isKnown = true` and emits exactly `levels n` digests, one per
decomposition level. -/
theorem proof_at_zero_emits_levels_digests (D : List Entry)
    (h1 : 1 ≤ D.length) (h63 : D.length ≤ 2 ^ 63) :
    (Proof 0 D).length = levels D.length ∧ Proof 0 D ≠ [] := by
  have hlen : (Proof 0 D).length = levels D.length := by
    rw [Proof, if_neg (by omega)]
    exact subProof_zero_length D.length D rfl h1 h63
  refine ⟨hlen, ?_⟩
  intro hcon
  rw [hcon] at hlen
  have := levels_pos (n := D.length)
  simp at hlen
  omega

/-- C10 (witness). -/
theorem proof_at_zero_emits_levels_digests_witness :
    1 ≤ entriesSeven.length ∧
      ((Proof 0 entriesSeven).length = levels entriesSeven.length ∧
        Proof 0 entriesSeven ≠ []) :=
  ⟨by decide, proof_at_zero_emits_levels_digests entriesSeven (by decide)
    (by decide)⟩

/-- C9: after construction and after every `Append`, the number of level
arrays is `levels(leafCount)` - where `levels(n)` is `floor(log2 n) + 1` on
exact powers of two and `floor(log2 n) + 2` otherwise - and the top level
array holds exactly one digest, the root. -/
theorem levels_invariant_after_appends :
    (levels 1 = 1 ∧ levels 2 = 2 ∧ levels 3 = 3 ∧ levels 4 = 3) ∧
      ∀ (D0 : List Entry) (bs : List (List Entry)) (t : MerkleHashTree),
        1 ≤ D0.length → D0.length + (bs.map List.length).sum ≤ 2 ^ 63 →
        New D0 = some t →
        (afterAppends t bs).tree.length =
          levels (D0.length + (bs.map List.length).sum) ∧
        ∃ d, (afterAppends t bs).tree.getLast? = some [d] ∧
          MerkleRoot (afterAppends t bs) = some d := by
  refine ⟨⟨by decide, by decide, by decide, by decide⟩, ?_⟩
  intro D0 bs t h1 h63 hnew
  obtain ⟨t', hnew', hwf⟩ := New_WF h1 (by omega)
  rw [hnew] at hnew'
  obtain rfl : t = t' := Option.some_inj.mp hnew'
  have hmaplen : (D0.map leafHash).length = D0.length := List.length_map D0 leafHash
  have hflatlen : (bs.flatten.map leafHash).length = (bs.map List.length).sum := by
    rw [List.length_map, List.length_flatten]
  have hwfafter := afterAppends_WF bs t (D0.map leafHash) hwf (by omega)
  have htotal : ((D0.map leafHash) ++ bs.flatten.map leafHash).length =
      D0.length + (bs.map List.length).sum := by
    rw [List.length_append, hmaplen, hflatlen]
  refine ⟨by rw [hwfafter.2.1, htotal], _, hwfafter.2.2.2, MerkleRoot_WF hwfafter⟩

/-- C9 (witness). -/
theorem levels_invariant_after_appends_witness :
    (1 ≤ ([[0]] : List Entry).length ∧
      New [[0]] = some (⟨[[Digest.leaf [0]]]⟩ : MerkleHashTree)) ∧
      ((afterAppends ⟨[[Digest.leaf [0]]]⟩ [[[1]]]).tree.length =
        levels (([[0]] : List Entry).length +
          (([[[1]]] : List (List Entry)).map List.length).sum) ∧
      ∃ d, (afterAppends ⟨[[Digest.leaf [0]]]⟩ [[[1]]]).tree.getLast? =
          some [d] ∧
        MerkleRoot (afterAppends ⟨[[Digest.leaf [0]]]⟩ [[[1]]]) = some d) :=
  ⟨⟨by decide, by decide⟩, levels_invariant_after_appends.2 [[0]] [[[1]]]
    ⟨[[Digest.leaf [0]]]⟩ (by decide) (by decide) (by decide)⟩

theorem largestPowerOf2SmallerThan_pow2 {t : Nat} (h1 : 1 ≤ t) (h63 : t ≤ 63) :
    largestPowerOf2SmallerThan (2 ^ t) = 2 ^ (t - 1) := by
  have h2 : 2 ≤ 2 ^ t := by
    calc 2 = 2 ^ 1 := by norm_num
    _ ≤ 2 ^ t := Nat.pow_le_pow_right (by omega) h1
  have hhalf : 2 ^ (t - 1) * 2 = 2 ^ t := by
    rw [← pow_succ]
    congr 1
    omega
  rw [largestPowerOf2SmallerThan_eq h2 (Nat.pow_le_pow_right (by omega) h63)]
  congr 1
  apply Nat.log_eq_of_pow_le_of_lt_pow
  · have h1le : 1 ≤ 2 ^ (t - 1) := Nat.one_le_two_pow
    omega
  · have : 2 ^ (t - 1 + 1) = 2 ^ t := by congr 1; omega
    omega

theorem blockListf_succ (j g : Nat) (es : List Digest) :
    blockListf j (g + 1) es =
      if es.length = 0 then []
      else if es.length ≤ 2 ^ j then
        (if 2 ^ (j - 1) < es.length then [MTHd es] else [])
      else MTHd (es.take (2 ^ j)) :: blockListf j g (es.drop (2 ^ j)) := rfl

theorem blockListf_eq_blockList {j : Nat} : ∀ (f : Nat) (es : List Digest),
    es.length ≤ f → blockListf j f es = blockList j es := by
  intro f
  induction f using Nat.strong_induction_on with
  | _ f ih =>
    intro es hf
    rcases Nat.eq_zero_or_pos es.length with h0 | h0
    · obtain rfl := List.length_eq_zero.mp h0
      cases f with
      | zero => rfl
      | succ f => simp [blockListf, blockList]
    · obtain ⟨g, rfl⟩ : ∃ g, f = g + 1 := ⟨f - 1, by omega⟩
      have hpow : 1 ≤ 2 ^ j := Nat.one_le_two_pow
      conv_rhs => rw [blockList, show es.length = es.length - 1 + 1 by omega]
      rw [blockListf_succ, blockListf_succ]
      by_cases hsz : es.length ≤ 2 ^ j
      · rw [if_neg (show ¬es.length = 0 by omega),
          if_neg (show ¬es.length = 0 by omega), if_pos hsz, if_pos hsz]
      · rw [if_neg (show ¬es.length = 0 by omega),
          if_neg (show ¬es.length = 0 by omega), if_neg hsz, if_neg hsz,
          ih g (by omega) _ (by rw [List.length_drop]; omega),
          ih (es.length - 1) (by omega) _ (by rw [List.length_drop]; omega)]

theorem blockList_nil {j : Nat} : blockList j [] = [] := rfl

theorem blockList_small {j : Nat} {es : List Digest} (h1 : 1 ≤ es.length)
    (h : es.length ≤ 2 ^ j) :
    blockList j es = if 2 ^ (j - 1) < es.length then [MTHd es] else [] := by
  conv_lhs => rw [blockList, show es.length = es.length - 1 + 1 by omega]
  rw [blockListf_succ, if_neg (show ¬es.length = 0 by omega), if_pos h]

theorem blockList_chunk {j : Nat} {es : List Digest} (h : 2 ^ j < es.length) :
    blockList j es = MTHd (es.take (2 ^ j)) :: blockList j (es.drop (2 ^ j)) := by
  have hpow : 1 ≤ 2 ^ j := Nat.one_le_two_pow
  conv_lhs => rw [blockList, show es.length = es.length - 1 + 1 by omega]
  rw [blockListf_succ, if_neg (show ¬es.length = 0 by omega),
    if_neg (show ¬es.length ≤ 2 ^ j by omega),
    blockListf_eq_blockList (es.length - 1) _ (by rw [List.length_drop]; omega)]

theorem blockList_under_half {j : Nat} {es : List Digest}
    (h : es.length ≤ 2 ^ (j - 1)) (hj : 1 ≤ j) : blockList j es = [] := by
  rcases Nat.eq_zero_or_pos es.length with h0 | h0
  · obtain rfl := List.length_eq_zero.mp h0
    rfl
  · have hhalf : 2 ^ (j - 1) ≤ 2 ^ j := Nat.pow_le_pow_right (by omega) (by omega)
    rw [@blockList_small j es h0 (by omega), if_neg (by omega)]

/-- `blockList` distributes over an append at a multiple of the block
size. -/
theorem blockList_append {j : Nat} (hj : 1 ≤ j) : ∀ (c : Nat)
    (A B : List Digest), A.length = c * 2 ^ j →
    blockList j (A ++ B) = blockList j A ++ blockList j B := by
  intro c
  induction c with
  | zero =>
    intro A B hA
    rw [Nat.zero_mul] at hA
    obtain rfl := List.length_eq_zero.mp hA
    simp [blockList_nil]
  | succ c ih =>
    intro A B hA
    have h2pow : 2 ≤ 2 ^ j := by
      calc 2 = 2 ^ 1 := by norm_num
      _ ≤ 2 ^ j := Nat.pow_le_pow_right (by omega) hj
    have hA' : A.length = c * 2 ^ j + 2 ^ j := by rw [hA]; ring
    by_cases hBnil : B = []
    · subst hBnil
      rw [List.append_nil, blockList_nil, List.append_nil]
    · have hB : 1 ≤ B.length := List.length_pos.mpr hBnil
      have hgeA : 2 ^ j ≤ A.length := by omega
      have hlen : 2 ^ j < (A ++ B).length := by
        rw [List.length_append]; omega
      have hdropA : (A.drop (2 ^ j)).length = c * 2 ^ j := by
        rw [List.length_drop]; omega
      rw [blockList_chunk hlen, List.take_append_of_le_length hgeA,
        List.drop_append_of_le_length hgeA, ih (A.drop (2 ^ j)) B hdropA]
      rcases Nat.eq_zero_or_pos c with rfl | hc
      · have hdropnil : A.drop (2 ^ j) = [] := List.drop_of_length_le (by omega)
        have htakeall : A.take (2 ^ j) = A := List.take_of_length_le (by omega)
        rw [hdropnil, htakeall, blockList_nil,
          @blockList_small j A (by omega) (by omega),
          if_pos (by
            have : 2 ^ (j - 1) < 2 ^ j := Nat.pow_lt_pow_right (by omega) (by omega)
            omega)]
        rfl
      · have hcmul : 2 ^ j ≤ c * 2 ^ j := Nat.le_mul_of_pos_left (2 ^ j) hc
        have hAlen : 2 ^ j < A.length := by omega
        rw [blockList_chunk hAlen, List.cons_append]

/-- Element lookup in `blockList`: index `i` holds the digest of the `i`-th
aligned chunk, provided that chunk is full or is a majority tail. -/
theorem blockList_get {j : Nat} (hj : 1 ≤ j) : ∀ (i : Nat) (es : List Digest),
    ((i + 1) * 2 ^ j ≤ es.length ∨
      (i * 2 ^ j < es.length ∧ es.length ≤ (i + 1) * 2 ^ j ∧
        2 ^ (j - 1) < es.length - i * 2 ^ j)) →
    (blockList j es)[i]? = some (MTHd ((es.drop (i * 2 ^ j)).take (2 ^ j))) := by
  intro i
  induction i with
  | zero =>
    intro es hcond
    simp only [Nat.zero_mul, Nat.zero_add, Nat.one_mul, Nat.sub_zero] at hcond
    have hpow : 1 ≤ 2 ^ j := Nat.one_le_two_pow
    simp only [Nat.zero_mul, List.drop_zero]
    by_cases hsz : es.length ≤ 2 ^ j
    · have hmaj : 2 ^ (j - 1) < es.length := by
        rcases hcond with h | h
        · have : 2 ^ (j - 1) < 2 ^ j := Nat.pow_lt_pow_right (by omega) (by omega)
          omega
        · omega
      rw [blockList_small (by omega) hsz, if_pos hmaj,
        List.take_of_length_le hsz]
      rfl
    · rw [blockList_chunk (by omega)]
      simp
  | succ i ih =>
    intro es hcond
    have hpow : 1 ≤ 2 ^ j := Nat.one_le_two_pow
    have hr1 : (i + 1 + 1) * 2 ^ j = (i + 1) * 2 ^ j + 2 ^ j := by ring
    have hr2 : (i + 1) * 2 ^ j = i * 2 ^ j + 2 ^ j := by ring
    have hlow : 2 ^ j ≤ (i + 1) * 2 ^ j := Nat.le_mul_of_pos_left _ (by omega)
    have hmid : (i + 1) * 2 ^ j < es.length := by
      rcases hcond with h | h
      · omega
      · exact h.1
    have hchunk : 2 ^ j < es.length := lt_of_le_of_lt hlow hmid
    rw [blockList_chunk hchunk, List.getElem?_cons_succ,
      ih (es.drop (2 ^ j)) (by
        rw [List.length_drop]
        rcases hcond with h | h
        · left; omega
        · right; omega)]
    have hdd : (es.drop (2 ^ j)).drop (i * 2 ^ j) = es.drop ((i + 1) * 2 ^ j) := by
      rw [List.drop_drop]
      congr 1
      ring
    rw [hdd]

theorem nicef_succ (g n : Nat) :
    nicef (g + 1) n = if n ≤ 2 then true else
      ((n - largestPowerOf2SmallerThan n == 1 ||
        levels (n - largestPowerOf2SmallerThan n) == levels n - 1) &&
       nicef g (n - largestPowerOf2SmallerThan n)) := rfl

theorem nicef_eq_nice : ∀ (f n : Nat), n + 1 ≤ f → n ≤ 2 ^ 63 →
    nicef f n = nice n := by
  intro f
  induction f using Nat.strong_induction_on with
  | _ f ih =>
    intro n hf h63
    obtain ⟨g, rfl⟩ : ∃ g, f = g + 1 := ⟨f - 1, by omega⟩
    rw [nice, nicef_succ, nicef_succ]
    by_cases hs : n ≤ 2
    · rw [if_pos hs, if_pos hs]
    · have h2 : 2 ≤ n := by omega
      have hk1 : 0 < largestPowerOf2SmallerThan n :=
        largestPowerOf2SmallerThan_pos h2 h63
      have hk2 : largestPowerOf2SmallerThan n < n :=
        largestPowerOf2SmallerThan_lt (by omega)
      rw [if_neg hs, if_neg hs,
        ih g (by omega) _ (by omega) (by omega),
        ih n (by omega) _ (by omega) (by omega)]

theorem nice_small {n : Nat} (h : n ≤ 2) : nice n = true := by
  rw [nice, nicef_succ, if_pos h]

theorem nice_unfold {n : Nat} (h3 : 3 ≤ n) (h63 : n ≤ 2 ^ 63) :
    nice n = ((n - largestPowerOf2SmallerThan n == 1 ||
      levels (n - largestPowerOf2SmallerThan n) == levels n - 1) &&
      nice (n - largestPowerOf2SmallerThan n)) := by
  have hk1 : 0 < largestPowerOf2SmallerThan n :=
    largestPowerOf2SmallerThan_pos (by omega) h63
  have hk2 : largestPowerOf2SmallerThan n < n :=
    largestPowerOf2SmallerThan_lt (by omega)
  rw [nice, nicef_succ, if_neg (by omega),
    nicef_eq_nice n _ (by omega) (by omega)]

theorem nice_pow2 : ∀ t : Nat, t ≤ 63 → nice (2 ^ t) = true := by
  intro t
  induction t with
  | zero => intro _; exact nice_small (by norm_num)
  | succ t ih =>
    intro ht
    rcases Nat.eq_zero_or_pos t with rfl | hz
    · exact nice_small (by norm_num)
    · have h4 : 4 ≤ 2 ^ (t + 1) := by
        calc 4 = 2 ^ 2 := by norm_num
        _ ≤ 2 ^ (t + 1) := Nat.pow_le_pow_right (by omega) (by omega)
      have h63 : 2 ^ (t + 1) ≤ 2 ^ 63 := Nat.pow_le_pow_right (by omega) (by omega)
      have hk : largestPowerOf2SmallerThan (2 ^ (t + 1)) = 2 ^ t := by
        rw [largestPowerOf2SmallerThan_pow2 (by omega) (by omega)]
        congr 1
      have hsub : 2 ^ (t + 1) - 2 ^ t = 2 ^ t := by
        have : 2 ^ (t + 1) = 2 ^ t * 2 := by rw [← pow_succ]
        omega
      rw [nice_unfold (by omega) h63, hk, hsub, levels_pow2, levels_pow2,
        ih (by omega)]
      simp

theorem levels_le_64 {n : Nat} (h63 : n ≤ 2 ^ 63) : levels n ≤ 64 := by
  rcases Nat.eq_zero_or_pos n with rfl | h
  · decide
  · calc levels n ≤ levels (2 ^ 63) := levels_mono h h63
    _ = 64 := by rw [levels_pow2]

/-- On a `nice` leaf count, `buildTree` writes to level `j ≥ 1` exactly the
dyadic block digests of the leaves. -/
theorem nodesAt_nice : ∀ (n : Nat) (es : List Digest) (j : Nat),
    es.length = n → n ≤ 2 ^ 63 → nice n = true → 1 ≤ j →
    nodesAt es (levels n - 1) j = blockList j es := by
  intro n
  induction n using Nat.strong_induction_on with
  | _ n ih =>
    intro es j hn h63 hnice hj
    have hpowj : 1 ≤ 2 ^ j := Nat.one_le_two_pow
    have hpowj1 : 1 ≤ 2 ^ (j - 1) := Nat.one_le_two_pow
    by_cases hs : es.length ≤ 1
    · rw [nodesAt_small hs]
      rcases Nat.eq_zero_or_pos es.length with h0 | h0
      · obtain rfl := List.length_eq_zero.mp h0
        rw [blockList_nil]
      · rw [blockList_small (by omega) (by omega), if_neg (by omega)]
    · subst hn
      have h2 : 2 ≤ es.length := by omega
      have hk : largestPowerOf2SmallerThan es.length =
          2 ^ (levels es.length - 2) :=
        largestPowerOf2SmallerThan_eq_levels h2 h63
      have hkpos : 0 < largestPowerOf2SmallerThan es.length :=
        largestPowerOf2SmallerThan_pos h2 h63
      have hklt : largestPowerOf2SmallerThan es.length < es.length :=
        largestPowerOf2SmallerThan_lt (by omega)
      have hlev2 : 2 ≤ levels es.length := by
        have := levels_eq_log h2
        omega
      have hlev64 : levels es.length ≤ 64 := levels_le_64 h63
      have hAlen : (es.take (largestPowerOf2SmallerThan es.length)).length =
          largestPowerOf2SmallerThan es.length := by
        rw [List.length_take]
        omega
      have hBlen : (es.drop (largestPowerOf2SmallerThan es.length)).length =
          es.length - largestPowerOf2SmallerThan es.length := by
        rw [List.length_drop]
      have hr : es.length - largestPowerOf2SmallerThan es.length = 1 ∨
          (levels (es.length - largestPowerOf2SmallerThan es.length) =
            levels es.length - 1 ∧
           nice (es.length - largestPowerOf2SmallerThan es.length) = true) := by
        rcases Nat.lt_or_ge es.length 3 with h3 | h3
        · left
          have h2' : es.length = 2 := by omega
          have hl2 : levels es.length = 2 := by rw [h2']; exact levels_two
          have : largestPowerOf2SmallerThan es.length = 1 := by
            rw [hk, hl2]
            rfl
          omega
        · have hnice' := hnice
          rw [nice_unfold h3 h63] at hnice'
          rcases Bool.and_eq_true_iff.mp hnice' with ⟨hor, hrn⟩
          rcases Bool.or_eq_true_iff.mp hor with h1 | hlv
          · left
            simpa using h1
          · right
            exact ⟨by simpa using hlv, hrn⟩
      have hlevK : levels (largestPowerOf2SmallerThan es.length) =
          levels es.length - 1 := by
        rw [hk, levels_pow2]
        omega
      have hAres : nodesAt (es.take (largestPowerOf2SmallerThan es.length))
          (levels es.length - 1 - 1) j =
          blockList j (es.take (largestPowerOf2SmallerThan es.length)) := by
        have := ih (largestPowerOf2SmallerThan es.length) hklt
          (es.take (largestPowerOf2SmallerThan es.length)) j hAlen (by omega)
          (by rw [hk]; exact nice_pow2 _ (by omega)) hj
        rw [show levels (largestPowerOf2SmallerThan es.length) - 1 =
          levels es.length - 1 - 1 by omega] at this
        exact this
      rw [nodesAt_node h2 h63]
      rcases Nat.lt_trichotomy j (levels es.length - 1) with hjlt | hjeq | hjgt
      · have hAmul : (es.take (largestPowerOf2SmallerThan es.length)).length =
            2 ^ (levels es.length - 2 - j) * 2 ^ j := by
          rw [hAlen, ← pow_add,
            show levels es.length - 2 - j + j = levels es.length - 2 by omega,
            ← hk]
        have hsplit : blockList j es =
            blockList j (es.take (largestPowerOf2SmallerThan es.length)) ++
            blockList j (es.drop (largestPowerOf2SmallerThan es.length)) := by
          conv_lhs => rw [← List.take_append_drop
            (largestPowerOf2SmallerThan es.length) es]
          exact blockList_append hj _ _ _ hAmul
        rw [if_neg (show ¬j = levels es.length - 1 by omega), hAres, hsplit]
        rcases hr with hr1 | ⟨hrlev, hrnice⟩
        · have hBsmall : nodesAt (es.drop (largestPowerOf2SmallerThan es.length))
              (levels es.length - 1 - 1) j = [] :=
            nodesAt_small (by omega)
          have hBnil : blockList j
              (es.drop (largestPowerOf2SmallerThan es.length)) = [] := by
            rw [blockList_small (by omega) (by omega), if_neg (by omega)]
          rw [hBsmall, hBnil]
          simp
        · have hBres : nodesAt (es.drop (largestPowerOf2SmallerThan es.length))
              (levels es.length - 1 - 1) j =
              blockList j (es.drop (largestPowerOf2SmallerThan es.length)) := by
            have := ih (es.length - largestPowerOf2SmallerThan es.length)
              (by omega) (es.drop (largestPowerOf2SmallerThan es.length)) j
              hBlen (by omega) hrnice hj
            rw [show levels (es.length - largestPowerOf2SmallerThan es.length)
              - 1 = levels es.length - 1 - 1 by omega] at this
            exact this
          rw [hBres]
          simp
      · have hAhigh : nodesAt (es.take (largestPowerOf2SmallerThan es.length))
            (levels es.length - 1 - 1) j = [] :=
          nodesAt_high _ _ _ _ rfl (by omega) (by omega)
        have hBhigh : nodesAt (es.drop (largestPowerOf2SmallerThan es.length))
            (levels es.length - 1 - 1) j = [] :=
          nodesAt_high _ _ _ _ rfl (by omega) (by omega)
        rw [hAhigh, hBhigh, if_pos hjeq,
          blockList_small (by omega) (by rw [hjeq]; exact le_pow_levels (by omega)),
          if_pos (by rw [show j - 1 = levels es.length - 2 by omega]; exact pow_levels_lt h2)]
        simp
      · have hAhigh : nodesAt (es.take (largestPowerOf2SmallerThan es.length))
            (levels es.length - 1 - 1) j = [] :=
          nodesAt_high _ _ _ _ rfl (by omega) (by omega)
        have hBhigh : nodesAt (es.drop (largestPowerOf2SmallerThan es.length))
            (levels es.length - 1 - 1) j = [] :=
          nodesAt_high _ _ _ _ rfl (by omega) (by omega)
        have hfit : es.length ≤ 2 ^ (levels es.length - 1) :=
          le_pow_levels (by omega)
        have hmono : (2 : Nat) ^ (levels es.length - 1) ≤ 2 ^ (j - 1) :=
          Nat.pow_le_pow_right (by omega) (by omega)
        have hmono' : (2 : Nat) ^ (j - 1) ≤ 2 ^ j :=
          Nat.pow_le_pow_right (by omega) (by omega)
        rw [hAhigh, hBhigh, if_neg (show ¬j = levels es.length - 1 by omega),
          blockList_small (by omega) (by omega), if_neg (by omega)]
        simp

/-- Layout of `New` on a `nice` leaf count: level `0` holds the leaf digests
and level `j ≥ 1` holds exactly the dyadic block digests of the leaves. -/
theorem New_layout_nice {D : List Entry} (h1 : 1 ≤ D.length)
    (h63 : D.length ≤ 2 ^ 63) (hnice : nice D.length = true) :
    ∃ t, New D = some t ∧ t.tree.length = levels D.length ∧
      t.tree.getD 0 [] = D.map leafHash ∧
      ∀ j, 1 ≤ j → t.tree.getD j [] = blockList j (D.map leafHash) := by
  obtain ⟨t, hnew, hlen, hlayout⟩ := New_layout h1 h63
  have hmaplen : (D.map leafHash).length = D.length := List.length_map D leafHash
  refine ⟨t, hnew, hlen, ?_, ?_⟩
  · rw [hlayout 0, if_pos rfl, nodesAt_zero D.length _ _ (by omega) (by omega)
      (by rw [hmaplen]; exact le_pow_levels h1)]
    simp
  · intro j hj
    rw [hlayout j, if_neg (by omega),
      nodesAt_nice D.length _ j hmaplen h63 (by rw [← hmaplen] at hnice ⊢; exact hnice) hj]
    simp

theorem drop_take_one : ∀ (l : List Digest) (s : Nat) (x : Digest),
    l[s]? = some x → (l.drop s).take 1 = [x] := by
  intro l
  induction l with
  | nil =>
    intro s x hx
    simp at hx
  | cons a tl ih =>
    intro s x hx
    cases s with
    | zero =>
      simp at hx
      subst hx
      rfl
    | succ s =>
      simp at hx
      exact ih s x hx

/-- Decomposition ranges are well-formed sub-ranges of `[0, n-1]`. -/
theorem Subtree_wf {n s e : Nat} (h63 : n ≤ 2 ^ 63) (hsub : Subtree n s e) :
    1 ≤ n ∧ s ≤ e ∧ e < n := by
  induction hsub with
  | root h => omega
  | left hsub h2 ih =>
    rename_i s' e'
    obtain ⟨hn1, hse, hen⟩ := ih
    have hkpos : 0 < largestPowerOf2SmallerThan (e' - s' + 1) :=
      largestPowerOf2SmallerThan_pos h2 (by omega)
    have hklt : largestPowerOf2SmallerThan (e' - s' + 1) < e' - s' + 1 :=
      largestPowerOf2SmallerThan_lt (by omega)
    omega
  | right hsub h2 ih =>
    rename_i s' e'
    obtain ⟨hn1, hse, hen⟩ := ih
    have hkpos : 0 < largestPowerOf2SmallerThan (e' - s' + 1) :=
      largestPowerOf2SmallerThan_pos h2 (by omega)
    have hklt : largestPowerOf2SmallerThan (e' - s' + 1) < e' - s' + 1 :=
      largestPowerOf2SmallerThan_lt (by omega)
    omega

/-- Every decomposition range is a single leaf or satisfies the arithmetic
block characterisation. -/
theorem Subtree_good {n s e : Nat} (h63 : n ≤ 2 ^ 63) (hsub : Subtree n s e) :
    s = e ∨ GoodRange n s e := by
  induction hsub with
  | root h =>
    rcases Nat.lt_or_ge n 2 with h2 | h2
    · left
      omega
    · right
      exact ⟨by omega, by omega, by omega, dvd_zero _, Or.inr rfl⟩
  | left hsub h2 ih =>
    rename_i s' e'
    obtain ⟨hn1, hse, hen⟩ := Subtree_wf h63 hsub
    have hgp : GoodRange n s' e' := by
      rcases ih with heq | hg
      · exfalso
        omega
      · exact hg
    obtain ⟨hse1, hen1, hsz2, hdvd, hdisj⟩ := hgp
    have hsz63 : e' - s' + 1 ≤ 2 ^ 63 := by omega
    have hk : largestPowerOf2SmallerThan (e' - s' + 1) =
        2 ^ (levels (e' - s' + 1) - 2) :=
      largestPowerOf2SmallerThan_eq_levels h2 hsz63
    have hkpos : 0 < largestPowerOf2SmallerThan (e' - s' + 1) :=
      largestPowerOf2SmallerThan_pos h2 hsz63
    have hklt : largestPowerOf2SmallerThan (e' - s' + 1) < e' - s' + 1 :=
      largestPowerOf2SmallerThan_lt (by omega)
    have hlev2 : 2 ≤ levels (e' - s' + 1) := by
      have := levels_eq_log h2
      omega
    rcases Nat.lt_or_ge (largestPowerOf2SmallerThan (e' - s' + 1)) 2 with hK1 | hK2
    · left
      omega
    · right
      have hsz' : s' + largestPowerOf2SmallerThan (e' - s' + 1) - 1 - s' + 1 =
          largestPowerOf2SmallerThan (e' - s' + 1) := by omega
      have hlevK : levels (largestPowerOf2SmallerThan (e' - s' + 1)) =
          levels (e' - s' + 1) - 1 := by
        rw [hk, levels_pow2]
        omega
      refine ⟨by omega, by omega, by omega, ?_, Or.inl ?_⟩
      · rw [hsz', hlevK]
        exact dvd_trans (pow_dvd_pow 2 (by omega)) hdvd
      · rw [hsz', hlevK,
          show levels (e' - s' + 1) - 1 - 1 = levels (e' - s' + 1) - 2 by omega,
          ← hk]
  | right hsub h2 ih =>
    rename_i s' e'
    obtain ⟨hn1, hse, hen⟩ := Subtree_wf h63 hsub
    have hgp : GoodRange n s' e' := by
      rcases ih with heq | hg
      · exfalso
        omega
      · exact hg
    obtain ⟨hse1, hen1, hsz2, hdvd, hdisj⟩ := hgp
    have hsz63 : e' - s' + 1 ≤ 2 ^ 63 := by omega
    have hk : largestPowerOf2SmallerThan (e' - s' + 1) =
        2 ^ (levels (e' - s' + 1) - 2) :=
      largestPowerOf2SmallerThan_eq_levels h2 hsz63
    have hkpos : 0 < largestPowerOf2SmallerThan (e' - s' + 1) :=
      largestPowerOf2SmallerThan_pos h2 hsz63
    have hklt : largestPowerOf2SmallerThan (e' - s' + 1) < e' - s' + 1 :=
      largestPowerOf2SmallerThan_lt (by omega)
    have hlev2 : 2 ≤ levels (e' - s' + 1) := by
      have := levels_eq_log h2
      omega
    have hhalf : e' - s' + 1 ≤ 2 * largestPowerOf2SmallerThan (e' - s' + 1) :=
      le_two_mul_largestPowerOf2SmallerThan h2 hsz63
    rcases Nat.lt_or_ge
        (e' - (s' + largestPowerOf2SmallerThan (e' - s' + 1)) + 1) 2 with hr1 | hr2
    · left
      omega
    · right
      have hlevrpos : 1 ≤ levels
          (e' - (s' + largestPowerOf2SmallerThan (e' - s' + 1)) + 1) := levels_pos
      have hlevr : levels (e' - (s' + largestPowerOf2SmallerThan (e' - s' + 1)) + 1) ≤
          levels (e' - s' + 1) - 1 := by
        calc levels (e' - (s' + largestPowerOf2SmallerThan (e' - s' + 1)) + 1)
            ≤ levels (largestPowerOf2SmallerThan (e' - s' + 1)) :=
              levels_mono (by omega) (by omega)
        _ = levels (e' - s' + 1) - 1 := by
              rw [hk, levels_pow2]
              omega
      refine ⟨by omega, by omega, by omega, ?_, ?_⟩
      · apply dvd_add
        · exact dvd_trans (pow_dvd_pow 2 (by omega)) hdvd
        · have hdK : (2 : Nat) ^
              (levels (e' - (s' + largestPowerOf2SmallerThan (e' - s' + 1)) + 1) - 1) ∣
              2 ^ (levels (e' - s' + 1) - 2) := pow_dvd_pow 2 (by omega)
          rw [← hk] at hdK
          exact hdK
      · rcases hdisj with hfull | hlast
        · left
          have hp : (2 : Nat) ^ (levels (e' - s' + 1) - 1) =
              2 * 2 ^ (levels (e' - s' + 1) - 2) := by
            rw [show levels (e' - s' + 1) - 1 = levels (e' - s' + 1) - 2 + 1 by omega,
              pow_succ]
            ring
          have hreq : e' - (s' + largestPowerOf2SmallerThan (e' - s' + 1)) + 1 =
              2 ^ (levels (e' - s' + 1) - 2) := by omega
          rw [hreq, levels_pow2]
          congr 1
        · right
          exact hlast

/-- `mthOfRange` on a decomposition range of a `nice` tree returns the stored
digest of exactly that leaf slice. -/
theorem mthOfRange_core {D : List Entry} {t : MerkleHashTree} {s e : Nat}
    (hnew : New D = some t) (h63 : D.length ≤ 2 ^ 63)
    (hnice : nice D.length = true) (hsub : Subtree D.length s e) :
    mthOfRange t s e =
      some (MTHd (((D.map leafHash).drop s).take (e - s + 1))) := by
  obtain ⟨hn1, hse, hen⟩ := Subtree_wf h63 hsub
  obtain ⟨t', hnew', hlen, h0, hhi⟩ := New_layout_nice hn1 h63 hnice
  rw [hnew] at hnew'
  obtain rfl : t = t' := Option.some_inj.mp hnew'
  have hLlen : (D.map leafHash).length = D.length := List.length_map D leafHash
  rcases Subtree_good h63 hsub with heq | hgood
  · subst heq
    rw [mthOfRange, if_pos rfl, h0]
    have hsl : s < (D.map leafHash).length := by omega
    obtain ⟨x, hx⟩ : ∃ x, (D.map leafHash)[s]? = some x :=
      ⟨_, List.getElem?_eq_getElem hsl⟩
    rw [hx, show s - s + 1 = 1 by omega, drop_take_one _ _ _ hx,
      @MTHd_length_one [x] rfl]
    rfl
  · obtain ⟨hse', hen', hsz2, hdvd, hdisj⟩ := hgood
    have hszlev : 2 ≤ levels (e - s + 1) := by
      have := levels_eq_log hsz2
      omega
    have hszle : e - s + 1 ≤ 2 ^ (levels (e - s + 1) - 1) :=
      le_pow_levels (by omega)
    have hmaj0 : 2 ^ (levels (e - s + 1) - 2) < e - s + 1 := pow_levels_lt hsz2
    obtain ⟨X, hX⟩ : ∃ X, levels (e - s + 1) - 1 = X := ⟨_, rfl⟩
    have hj1 : 1 ≤ X := by omega
    have hpow : 1 ≤ 2 ^ X := Nat.one_le_two_pow
    rw [mthOfRange, if_neg (by omega), hX, hhi _ hj1]
    rw [hX] at hdvd hszle hdisj
    have hmaj : 2 ^ (X - 1) < e - s + 1 := by
      rw [show X - 1 = levels (e - s + 1) - 2 by omega]
      exact hmaj0
    obtain ⟨i, hi⟩ := hdvd
    have hi' : i * 2 ^ X = s := by
      rw [Nat.mul_comm]
      exact hi.symm
    have hdiv : s / 2 ^ X = i := by
      rw [hi]
      exact Nat.mul_div_cancel_left i (by omega)
    rw [hdiv]
    have hr : (i + 1) * 2 ^ X = i * 2 ^ X + 2 ^ X := by ring
    rcases hdisj with hfull | hlast
    · have hcond : (i + 1) * 2 ^ X ≤ (D.map leafHash).length := by omega
      rw [blockList_get hj1 i _ (Or.inl hcond), hi',
        show (2 : Nat) ^ X = e - s + 1 from hfull.symm]
    · have hcond : i * 2 ^ X < (D.map leafHash).length ∧
          (D.map leafHash).length ≤ (i + 1) * 2 ^ X ∧
          2 ^ (X - 1) < (D.map leafHash).length - i * 2 ^ X :=
        ⟨by omega, by omega, by omega⟩
      rw [blockList_get hj1 i _ (Or.inr hcond), hi']
      have hdl : ((D.map leafHash).drop s).length = e - s + 1 := by
        rw [List.length_drop, hLlen]
        omega
      have ht1 : ((D.map leafHash).drop s).take (2 ^ X) =
          (D.map leafHash).drop s := List.take_of_length_le (by omega)
      have ht2 : ((D.map leafHash).drop s).take (e - s + 1) =
          (D.map leafHash).drop s := List.take_of_length_le (by omega)
      rw [ht1, ht2]

theorem AduitPathf_succ (g : Nat) (t : MerkleHashTree) (m s e : Nat) :
    AduitPathf (g + 1) t m s e =
      if s > e then some []
      else if m < s ∨ m > e then some []
      else if m = s ∧ e - s + 1 = 1 then some []
      else if m < s + largestPowerOf2SmallerThan (e - s + 1) then
        (AduitPathf g t m s (s + largestPowerOf2SmallerThan (e - s + 1) - 1)).bind
          (fun p => (mthOfRange t (s + largestPowerOf2SmallerThan (e - s + 1)) e).map
            (fun d => p ++ [d]))
      else
        (AduitPathf g t m (s + largestPowerOf2SmallerThan (e - s + 1)) e).bind
          (fun p => (mthOfRange t s (s + largestPowerOf2SmallerThan (e - s + 1) - 1)).map
            (fun d => p ++ [d])) := rfl

/-- Fuel irrelevance for `AduitPathf` (within the Go-representable range). -/
theorem AduitPathf_eq_AduitPath : ∀ (f : Nat) (t : MerkleHashTree) (m s e : Nat),
    e + 1 - s ≤ f → e - s + 1 ≤ 2 ^ 63 →
    AduitPathf f t m s e = AduitPath t m s e := by
  intro f
  induction f using Nat.strong_induction_on with
  | _ f ih =>
    intro t m s e hf h63
    rcases Nat.lt_or_ge e s with hes | hes
    · have h1 : AduitPath t m s e = some [] := by
        rw [AduitPath]
        rcases Nat.eq_zero_or_pos (e + 1 - s) with h0 | h0
        · rw [h0]
          simp only [AduitPathf]
          rw [if_pos hes]
        · obtain ⟨g', hg'⟩ : ∃ g', e + 1 - s = g' + 1 := ⟨e - s, by omega⟩
          rw [hg', AduitPathf_succ, if_pos hes]
      rcases Nat.eq_zero_or_pos f with rfl | hfpos
      · simp only [AduitPathf]
        rw [if_pos hes, h1]
      · obtain ⟨g, rfl⟩ : ∃ g, f = g + 1 := ⟨f - 1, by omega⟩
        rw [AduitPathf_succ, if_pos hes, h1]
    · obtain ⟨g, rfl⟩ : ∃ g, f = g + 1 := ⟨f - 1, by omega⟩
      obtain ⟨g', hg'⟩ : ∃ g', e + 1 - s = g' + 1 := ⟨e - s, by omega⟩
      have hg'le : g' ≤ g := by omega
      rw [AduitPath, hg', AduitPathf_succ, AduitPathf_succ]
      rw [if_neg (show ¬s > e by omega), if_neg (show ¬s > e by omega)]
      by_cases hm : m < s ∨ m > e
      · rw [if_pos hm, if_pos hm]
      rw [if_neg hm, if_neg hm]
      by_cases hbase : m = s ∧ e - s + 1 = 1
      · rw [if_pos hbase, if_pos hbase]
      rw [if_neg hbase, if_neg hbase]
      have hsz2 : 2 ≤ e - s + 1 := by
        rcases Nat.lt_or_ge (e - s + 1) 2 with h | h
        · exfalso
          apply hbase
          omega
        · exact h
      have hkpos : 0 < largestPowerOf2SmallerThan (e - s + 1) :=
        largestPowerOf2SmallerThan_pos hsz2 h63
      have hklt : largestPowerOf2SmallerThan (e - s + 1) < e - s + 1 :=
        largestPowerOf2SmallerThan_lt (by omega)
      by_cases hmk : m < s + largestPowerOf2SmallerThan (e - s + 1)
      · rw [if_pos hmk, if_pos hmk,
          ih g (by omega) t m s (s + largestPowerOf2SmallerThan (e - s + 1) - 1)
            (by omega) (by omega),
          ih g' (by omega) t m s (s + largestPowerOf2SmallerThan (e - s + 1) - 1)
            (by omega) (by omega)]
      · rw [if_neg hmk, if_neg hmk,
          ih g (by omega) t m (s + largestPowerOf2SmallerThan (e - s + 1)) e
            (by omega) (by omega),
          ih g' (by omega) t m (s + largestPowerOf2SmallerThan (e - s + 1)) e
            (by omega) (by omega)]

/-- `AduitPath` over a decomposition range of a `nice` tree computes the
static audit path of the corresponding leaf slice. -/
theorem AduitPath_eq_aux : ∀ (sz : Nat) (D : List Entry) (t : MerkleHashTree)
    (m s e : Nat), New D = some t → D.length ≤ 2 ^ 63 →
    nice D.length = true → Subtree D.length s e → e - s + 1 = sz →
    s ≤ m → m ≤ e →
    AduitPath t m s e = MerklePath (m - s) ((D.drop s).take (e - s + 1)) := by
  intro sz
  induction sz using Nat.strong_induction_on with
  | _ sz ih =>
    intro D t m s e hnew h63 hnice hsub hsz hsm hme
    obtain ⟨hn1, hse, hen⟩ := Subtree_wf h63 hsub
    have hslice : ((D.drop s).take (e - s + 1)).length = e - s + 1 := by
      rw [List.length_take, List.length_drop]
      omega
    rcases Nat.lt_or_ge e (s + 1) with h1 | h1
    · have hms : m = s := by omega
      have hone : e - s + 1 = 1 := by omega
      rw [AduitPath, show e + 1 - s = 1 by omega, AduitPathf_succ,
        if_neg (by omega), if_neg (by omega), if_pos ⟨hms, hone⟩,
        show m - s = 0 by omega, MerklePath_base (by omega)]
    · have hsz2 : 2 ≤ e - s + 1 := by omega
      have hsz63 : e - s + 1 ≤ 2 ^ 63 := by omega
      have hkpos : 0 < largestPowerOf2SmallerThan (e - s + 1) :=
        largestPowerOf2SmallerThan_pos hsz2 hsz63
      have hklt : largestPowerOf2SmallerThan (e - s + 1) < e - s + 1 :=
        largestPowerOf2SmallerThan_lt (by omega)
      have hKs : largestPowerOf2SmallerThan ((D.drop s).take (e - s + 1)).length =
          largestPowerOf2SmallerThan (e - s + 1) := by
        rw [hslice]
      have htt : ((D.drop s).take (e - s + 1)).take
            (largestPowerOf2SmallerThan (e - s + 1)) =
          (D.drop s).take (largestPowerOf2SmallerThan (e - s + 1)) := by
        rw [List.take_take, Nat.min_eq_left (by omega)]
      have htd : ((D.drop s).take (e - s + 1)).drop
            (largestPowerOf2SmallerThan (e - s + 1)) =
          (D.drop (s + largestPowerOf2SmallerThan (e - s + 1))).take
            (e - s + 1 - largestPowerOf2SmallerThan (e - s + 1)) := by
        rw [List.drop_take, List.drop_drop]
      obtain ⟨g', hg'⟩ : ∃ g', e + 1 - s = g' + 1 := ⟨e - s, by omega⟩
      rw [AduitPath, hg', AduitPathf_succ, if_neg (by omega), if_neg (by omega),
        if_neg (show ¬(m = s ∧ e - s + 1 = 1) by omega)]
      by_cases hmk : m < s + largestPowerOf2SmallerThan (e - s + 1)
      · rw [if_pos hmk,
          AduitPathf_eq_AduitPath g' t m s
            (s + largestPowerOf2SmallerThan (e - s + 1) - 1) (by omega) (by omega),
          ih (largestPowerOf2SmallerThan (e - s + 1)) (by omega) D t m s
            (s + largestPowerOf2SmallerThan (e - s + 1) - 1) hnew h63 hnice
            (Subtree.left hsub hsz2) (by omega) hsm (by omega),
          mthOfRange_core hnew h63 hnice (Subtree.right hsub hsz2),
          MerklePath_left (show 2 ≤ ((D.drop s).take (e - s + 1)).length from
              by omega)
            (show ((D.drop s).take (e - s + 1)).length ≤ 2 ^ 63 from by omega)
            (show m - s < largestPowerOf2SmallerThan
                ((D.drop s).take (e - s + 1)).length from by rw [hKs]; omega),
          hKs, htt, htd,
          show s + largestPowerOf2SmallerThan (e - s + 1) - 1 - s + 1 =
            largestPowerOf2SmallerThan (e - s + 1) from by omega,
          show e - (s + largestPowerOf2SmallerThan (e - s + 1)) + 1 =
            e - s + 1 - largestPowerOf2SmallerThan (e - s + 1) from by omega,
          ← List.map_drop, ← List.map_take, MTH_map]
        cases MerklePath (m - s)
            ((D.drop s).take (largestPowerOf2SmallerThan (e - s + 1))) <;> rfl
      · rw [if_neg hmk,
          AduitPathf_eq_AduitPath g' t m
            (s + largestPowerOf2SmallerThan (e - s + 1)) e (by omega) (by omega),
          ih (e - s + 1 - largestPowerOf2SmallerThan (e - s + 1)) (by omega) D t m
            (s + largestPowerOf2SmallerThan (e - s + 1)) e hnew h63 hnice
            (Subtree.right hsub hsz2) (by omega) (by omega) hme,
          mthOfRange_core hnew h63 hnice (Subtree.left hsub hsz2),
          MerklePath_right (show 2 ≤ ((D.drop s).take (e - s + 1)).length from
              by omega)
            (show ((D.drop s).take (e - s + 1)).length ≤ 2 ^ 63 from by omega)
            (show m - s < ((D.drop s).take (e - s + 1)).length from by omega)
            (show ¬m - s < largestPowerOf2SmallerThan
                ((D.drop s).take (e - s + 1)).length from by rw [hKs]; omega),
          hKs, htt, htd,
          show s + largestPowerOf2SmallerThan (e - s + 1) - 1 - s + 1 =
            largestPowerOf2SmallerThan (e - s + 1) from by omega,
          show e - (s + largestPowerOf2SmallerThan (e - s + 1)) + 1 =
            e - s + 1 - largestPowerOf2SmallerThan (e - s + 1) from by omega,
          show m - s - largestPowerOf2SmallerThan (e - s + 1) =
            m - (s + largestPowerOf2SmallerThan (e - s + 1)) from by omega,
          ← List.map_drop, ← List.map_take, MTH_map]
        cases MerklePath (m - (s + largestPowerOf2SmallerThan (e - s + 1)))
            ((D.drop (s + largestPowerOf2SmallerThan (e - s + 1))).take
              (e - s + 1 - largestPowerOf2SmallerThan (e - s + 1))) <;> rfl

/-- On pairwise-distinct entries, `IndexOf` recovers the index of a leaf. -/
theorem findIdx_leafHash : ∀ (D : List Entry) (m : Nat),
    D.Pairwise (fun a b => a ≠ b) → m < D.length →
    (D.map leafHash).findIdx? (fun b => b = leafHash (D.getD m [])) = some m := by
  intro D
  induction D with
  | nil =>
    intro m _ hm
    simp at hm
  | cons a tl ih =>
    intro m hp hm
    rcases List.pairwise_cons.mp hp with ⟨hne, hptl⟩
    cases m with
    | zero =>
      rw [List.map_cons, List.findIdx?_cons]
      simp [List.getD]
    | succ k =>
      have hk : k < tl.length := by
        simp at hm
        omega
      have hmem : tl.getD k [] ∈ tl := by
        have : tl.getD k [] = tl[k] := by
          rw [List.getD_eq_getElem?_getD, List.getElem?_eq_getElem hk]
          rfl
        rw [this]
        exact List.getElem_mem hk
      have hhead : leafHash a ≠ leafHash (tl.getD k []) := by
        intro h
        exact hne _ hmem (Digest.leaf.inj h)
      rw [List.map_cons, List.findIdx?_cons]
      have hgetD : (a :: tl).getD (k + 1) [] = tl.getD k [] := rfl
      rw [hgetD]
      rw [if_neg (by simpa using hhead), List.findIdx?_succ, ih k hptl hk]
      rfl

/-- Full-range `AduitPath` equals the static `Path` on a `nice` tree. -/
theorem AduitPath_full_core {D : List Entry} {t : MerkleHashTree} {m : Nat}
    (hnew : New D = some t) (h63 : D.length ≤ 2 ^ 63)
    (hnice : nice D.length = true) (hm : m < D.length) :
    AduitPath t m 0 (D.length - 1) = MerklePath m D := by
  have hn1 : 1 ≤ D.length := by omega
  rw [AduitPath_eq_aux (D.length - 1 - 0 + 1) D t m 0 (D.length - 1) hnew h63
    hnice (Subtree.root D.length hn1) rfl (by omega) (by omega),
    Nat.sub_zero, List.drop_zero, show D.length - 1 - 0 + 1 = D.length by omega,
    List.take_length]

/-- C3 (corrected): on a tree built by `New` from a `nice` leaf count
(`nice n` holds iff every right remainder of the power-of-two decomposition
of `n` is a single leaf or sits exactly one level below its parent; it holds
for all n ≤ 5, all powers of two and e.g. n = 7, but fails for n = 6),
`mthOfRange(s, e)` on every decomposition subtree range `[s, e]` returns
`some` of the stored digest, which equals `MTH(D[s..e])` — in particular the
array access `tree[levels(e-s+1)-1][s / 2^(levels(e-s+1)-1)]` is in bounds.
Without `nice` the lookup can panic on a decomposition range (see the
counterexample at `n = 6`). -/
theorem mthOfRange_decomposition_subtree {D : List Entry} {s e : Nat}
    (h63 : D.length ≤ 2 ^ 63) (hnice : nice D.length = true)
    (hsub : Subtree D.length s e) :
    (New D).bind (fun t => mthOfRange t s e) =
      some (MTH ((D.drop s).take (e - s + 1))) := by
  obtain ⟨hn1, hse, hen⟩ := Subtree_wf h63 hsub
  obtain ⟨t, hnew, hwf⟩ := New_WF hn1 h63
  rw [hnew, Option.some_bind, mthOfRange_core hnew h63 hnice hsub,
    ← List.map_drop, ← List.map_take, MTH_map]

theorem mthOfRange_decomposition_subtree_witness :
    entriesSeven.length ≤ 2 ^ 63 ∧ nice entriesSeven.length = true ∧
    Subtree entriesSeven.length 4 6 ∧
    (New entriesSeven).bind (fun t => mthOfRange t 4 6) =
      some (MTH ((entriesSeven.drop 4).take (6 - 4 + 1))) := by
  have hroot : Subtree entriesSeven.length 0 6 :=
    Subtree.root entriesSeven.length (by decide)
  have hsub : Subtree entriesSeven.length 4 6 := Subtree.right hroot (by decide)
  exact ⟨by decide, by decide, hsub,
    mthOfRange_decomposition_subtree (by decide) (by decide) hsub⟩

/-- C3 (counterexample): `n = 6` is not `nice` — `[4, 5]` is a
decomposition subtree of the 6-leaf range, but `buildTree` stored its digest
at the depth-determined level while `mthOfRange` looks it up at level
`levels(2) - 1 = 1`, index `4 / 2 = 2`, which is out of range: the Go array
access panics (`none`), so no stored digest is returned. -/
theorem mthOfRange_nonnice_range_cex :
    Subtree entriesSix.length 4 5 ∧
    (New entriesSix).bind (fun t => mthOfRange t 4 5) = none := by
  refine ⟨?_, by decide⟩
  have hroot : Subtree entriesSix.length 0 5 :=
    Subtree.root entriesSix.length (by decide)
  exact Subtree.right hroot (by decide)

/-- C4 (corrected): on a tree built by `New` from a `nice` leaf count
(see `mthOfRange_decomposition_subtree`; without `nice`, `AduitPath` hits a
panicking `mthOfRange` lookup even though the entries are pairwise distinct
— see the counterexample at `n = 6`), the incremental audit path
`AduitPath(m, 0, n-1)` equals the static `Path(m, D)`, and — for
pairwise-distinct entries — so does the path `InclusionProof(D[m])` computes
after locating `D[m]` by its leaf hash. -/
theorem incremental_audit_path_eq_static {D : List Entry} {m : Nat}
    (h63 : D.length ≤ 2 ^ 63) (hnice : nice D.length = true)
    (hm : m < D.length) :
    (New D).bind (fun t => AduitPath t m 0 (D.length - 1)) = MerklePath m D ∧
    (D.Pairwise (fun a b => a ≠ b) →
      (New D).bind (fun t => InclusionProof t (D.getD m [])) =
        MerklePath m D) := by
  have hn1 : 1 ≤ D.length := by omega
  obtain ⟨t, hnew, hwf⟩ := New_WF hn1 h63
  obtain ⟨h1len, hlen, h0, htop⟩ := hwf
  constructor
  · rw [hnew, Option.some_bind, AduitPath_full_core hnew h63 hnice hm]
  · intro hp
    have hidx : IndexOf (D.map leafHash) (leafHash (D.getD m [])) = (m : Int) := by
      unfold IndexOf
      rw [findIdx_leafHash D m hp hm]
    rw [hnew, Option.some_bind]
    simp only [InclusionProof]
    rw [h0, hidx, if_neg (by omega), Int.toNat_natCast, List.length_map,
      AduitPath_full_core hnew h63 hnice hm]

theorem incremental_audit_path_eq_static_witness :
    entriesSeven.length ≤ 2 ^ 63 ∧ nice entriesSeven.length = true ∧
    3 < entriesSeven.length ∧
    ((New entriesSeven).bind
        (fun t => AduitPath t 3 0 (entriesSeven.length - 1)) =
      MerklePath 3 entriesSeven ∧
    (entriesSeven.Pairwise (fun a b => a ≠ b) →
      (New entriesSeven).bind
          (fun t => InclusionProof t (entriesSeven.getD 3 [])) =
        MerklePath 3 entriesSeven)) :=
  ⟨by decide, by decide, by decide,
    incremental_audit_path_eq_static (by decide) (by decide) (by decide)⟩

/-- C4 (counterexample): for `n = 6` (pairwise-distinct entries, not
`nice`), the incremental `AduitPath(0, 0, 5)` hits the out-of-range
`mthOfRange` lookup for the `[4, 5]` subtree and panics (`none`), while the
static `Path(0, D)` returns a three-digest path. -/
theorem incremental_audit_path_nonnice_cex :
    entriesSix.Pairwise (fun a b => a ≠ b) ∧
    (New entriesSix).bind (fun t => AduitPath t 0 0 (entriesSix.length - 1)) ≠
      MerklePath 0 entriesSix := by decide
